import Mathlib

/-
Shallow embedding of the file-frontier repository (src/node.rs, src/tree.rs,
src/watcher.rs).

Filesystem paths are lists of path components.  The on-disk state visible to
the code is modelled as an inductive tree of entries (`Entry`): files carry a
byte size, directories carry an ordered entry list (filesystem enumeration
order) and a flag saying whether `read_dir` succeeds on them, and `broken`
stands for an entry whose `stat` fails (e.g. permission denied).  The external
std-library calls (`fs::metadata`, `fs::read_dir`, `fs::create_dir_all`) are
modelled as lookups and updates on this tree.

The mutually recursive functions of node.rs recurse through the directory
structure on disk, so their Lean counterparts take a fuel parameter that
bounds the recursion depth; running out of fuel behaves like one more I/O
error (which is already in the error universe of the code).  All statements
about the code are conditional on the outcome of the call, so the fuel never
needs a side condition.

In-place mutating Rust methods (`&mut self -> io::Result<T>`) are embedded as
functions returning the pair of the `io::Result` value and the post-call value
of `self`, so that partial mutation before an early `?` return is modelled
faithfully.
-/

namespace FileFrontier

abbrev Path : Type := List String

/-- Embeds `ExtendedMetadata` (node.rs): the three optional timestamps, with
`SystemTime` modelled as `Nat`. -/
structure ExtendedMetadata where
  modified : Option Nat
  accessed : Option Nat
  created : Option Nat
deriving DecidableEq, Repr

/-- Error kinds of `io::Error` that the code distinguishes: `NotFound`
(missing path) versus every other I/O error kind. -/
inductive FsError where
  | notFound
  | ioError
deriving DecidableEq, Repr

/-- One on-disk entry.  `file` carries the stat metadata and the byte size;
`dir` carries metadata, a flag telling whether `read_dir` succeeds on it, and
its child entries in filesystem-enumeration order; `broken` is an entry whose
`stat` fails with a non-NotFound error (e.g. permission denied). -/
inductive Entry where
  | file (m : ExtendedMetadata) (size : Nat)
  | dir (m : ExtendedMetadata) (readOk : Bool) (entries : List (String × Entry))
  | broken
deriving Repr

/-- First entry with the given name in a directory listing. -/
def findEntry (name : String) : List (String × Entry) → Option Entry
  | [] => none
  | (k, e) :: rest => if k = name then some e else findEntry name rest

/-- Resolve a path against the disk, component by component. -/
def Entry.lookup : Entry → Path → Option Entry
  | e, [] => some e
  | .dir _ _ es, name :: rest =>
    match findEntry name es with
    | some child => Entry.lookup child rest
    | none => none
  | .file _ _, _ :: _ => none
  | .broken, _ :: _ => none

/-- What `fs::metadata(path)` returns: directory flag, `st_size`, and the
timestamps.  A directory's own `st_size` is not used by the code for
aggregation, so it is modelled as 0. -/
structure StatInfo where
  isDir : Bool
  size : Nat
  times : ExtendedMetadata
deriving DecidableEq, Repr

/-- Embeds `fs::metadata(path)` (external collaborator): `NotFound` on a
missing path, a generic I/O error on a `broken` entry. -/
def Entry.statAt (disk : Entry) (p : Path) : Except FsError StatInfo :=
  match disk.lookup p with
  | none => .error .notFound
  | some .broken => .error .ioError
  | some (.file m sz) => .ok ⟨false, sz, m⟩
  | some (.dir m _ _) => .ok ⟨true, 0, m⟩

/-- Embeds `fs::read_dir(path)` (external collaborator): the child names in
enumeration order; fails with `NotFound` on a missing path and with a generic
I/O error on a file (NotADirectory), a `broken` entry, or a directory whose
listing fails. -/
def Entry.readDirAt (disk : Entry) (p : Path) : Except FsError (List String) :=
  match disk.lookup p with
  | none => .error .notFound
  | some (.dir _ true es) => .ok (es.map (fun pr => pr.1))
  | some (.dir _ false _) => .error .ioError
  | some (.file _ _) => .error .ioError
  | some .broken => .error .ioError

/-- Embeds `ExtendedMetadata::from_path` (node.rs): stat the path and keep the
timestamps. -/
def extMetadataAt (disk : Entry) (p : Path) : Except FsError ExtendedMetadata :=
  match disk.statAt p with
  | .error e => .error e
  | .ok st => .ok st.times

/-- Embeds `NodeType` (node.rs). -/
inductive NodeType where
  | File
  | Directory
deriving DecidableEq, Repr

/-- Embeds `Node` (node.rs): path, type, metadata, optional children, size. -/
inductive Node where
  | mk (path : Path) (node_type : NodeType) (metadata : ExtendedMetadata)
      (children : Option (List Node)) (size : Nat)
deriving Repr

def Node.path : Node → Path
  | .mk p _ _ _ _ => p

def Node.node_type : Node → NodeType
  | .mk _ t _ _ _ => t

def Node.metadata : Node → ExtendedMetadata
  | .mk _ _ m _ _ => m

def Node.children : Node → Option (List Node)
  | .mk _ _ _ c _ => c

def Node.size : Node → Nat
  | .mk _ _ _ _ s => s

/-- The assignment `self.children = v`. -/
def Node.withChildren : Node → Option (List Node) → Node
  | .mk p t m _ s, c => .mk p t m c s

/-- The assignment `self.size = v`. -/
def Node.withSize : Node → Nat → Node
  | .mk p t m c _, s => .mk p t m c s

/-- Embeds `Node::is_file`: `matches!(self.node_type, NodeType::File)`. -/
def Node.is_file (n : Node) : Bool :=
  match n.node_type with
  | .File => true
  | .Directory => false

/-- Embeds `Node::is_dir`: `matches!(self.node_type, NodeType::Directory)`. -/
def Node.is_dir (n : Node) : Bool :=
  match n.node_type with
  | .Directory => true
  | .File => false

/-- The children, an empty list when unpopulated (used by the traversal
embedding; absence versus emptiness is still tracked by `children`). -/
def Node.childList (n : Node) : List Node := n.children.getD []

mutual

/-- Embeds `Node::new` (node.rs).  Stats the path (twice, as the Rust code
does: once in `ExtendedMetadata::from_path` and once for `is_dir`), then
builds the node and calls `populate_children` and `calc_size` on it.  The
Rust code drops the `io::Result` values of those two calls (no `?`), so any
error they report is swallowed and the node mutated so far is returned with
`Ok`. -/
def Node.new : Nat → Entry → Path → Except FsError Node
  | 0, _, _ => .error .ioError
  | fuel + 1, disk, p =>
    match extMetadataAt disk p with
    | .error e => .error e
    | .ok m =>
      match disk.statAt p with
      | .error e => .error e
      | .ok st =>
        let nt := if st.isDir then NodeType.Directory else NodeType.File
        let n1 := (Node.populate_children fuel disk (.mk p nt m none 0)).2
        let n2 := (Node.calc_size fuel disk n1).2
        .ok n2

/-- Embeds `Node::populate_children` (node.rs).  No-op for a file; for a
directory, lists the entries and constructs a child node for each, assigning
`self.children = Some(childs)` only after the whole loop succeeded. -/
def Node.populate_children : Nat → Entry → Node → Except FsError Unit × Node
  | 0, _, n => (.error .ioError, n)
  | fuel + 1, disk, n =>
    if n.is_dir then
      match disk.readDirAt n.path with
      | .error e => (.error e, n)
      | .ok names =>
        match Node.buildChildren fuel disk n.path names with
        | .error e => (.error e, n)
        | .ok childs => (.ok (), n.withChildren (some childs))
    else (.ok (), n)

/-- The loop body of `populate_children`: `Node::new` on each listed child
path, aborting at the first failure. -/
def Node.buildChildren : Nat → Entry → Path → List String → Except FsError (List Node)
  | 0, _, _, _ => .error .ioError
  | _ + 1, _, _, [] => .ok []
  | fuel + 1, disk, base, name :: rest =>
    match Node.new fuel disk (base ++ [name]) with
    | .error e => .error e
    | .ok c =>
      match Node.buildChildren fuel disk base rest with
      | .error e => .error e
      | .ok cs => .ok (c :: cs)

/-- Embeds `Node::calc_size` (node.rs; `update_size` in tree.rs names the same
operation).  For a file, re-stat the path and store the byte size; for a
directory, populate the children if absent, then recursively update every
child and store the sum of the children's sizes.  Mutations performed before
an early `?` return are kept, exactly as in the Rust `&mut self` code. -/
def Node.calc_size : Nat → Entry → Node → Except FsError Unit × Node
  | 0, _, n => (.error .ioError, n)
  | fuel + 1, disk, n =>
    if n.is_file then
      match disk.statAt n.path with
      | .error e => (.error e, n)
      | .ok st => (.ok (), n.withSize st.size)
    else
      match (if n.children.isNone then Node.populate_children fuel disk n else (.ok (), n)) with
      | (.error e, n') => (.error e, n')
      | (.ok _, n') =>
        match n'.children with
        | none => (.ok (), n'.withSize 0)
        | some cs =>
          match Node.calcChildren fuel disk cs with
          | (.error e, cs') => (.error e, n'.withChildren (some cs'))
          | (.ok total, cs') => (.ok (), (n'.withChildren (some cs')).withSize total)

/-- The loop body of `calc_size` on a directory: update each child in order,
accumulating the sizes, aborting at the first failure (keeping the mutations
already made to earlier children). -/
def Node.calcChildren : Nat → Entry → List Node → Except FsError Nat × List Node
  | 0, _, cs => (.error .ioError, cs)
  | _ + 1, _, [] => (.ok 0, [])
  | fuel + 1, disk, c :: cs =>
    match Node.calc_size fuel disk c with
    | (.error e, c') => (.error e, c' :: cs)
    | (.ok _, c') =>
      match Node.calcChildren fuel disk cs with
      | (.error e, cs') => (.error e, c' :: cs')
      | (.ok total, cs') => (.ok (c'.size + total), c' :: cs')

end

/-- Embeds `Tree` (tree.rs): owns the root node. -/
structure Tree where
  head : Node

/-- Embeds `Tree::new`: build the root node from the root path. -/
def Tree.new (fuel : Nat) (disk : Entry) (root : Path) : Except FsError Tree :=
  match Node.new fuel disk root with
  | .error e => .error e
  | .ok h => .ok ⟨h⟩

/-- Embeds `Tree::refresh`: `self.head.populate_children()?` then
`self.head.update_size()?` (node.rs implements the latter as `calc_size`).
The pair carries the post-call tree, including partial mutation on error. -/
def Tree.refresh (fuel : Nat) (disk : Entry) (t : Tree) : Except FsError Unit × Tree :=
  match Node.populate_children fuel disk t.head with
  | (.error e, h') => (.error e, ⟨h'⟩)
  | (.ok _, h') =>
    match Node.calc_size fuel disk h' with
    | (.error e, h'') => (.error e, ⟨h''⟩)
    | (.ok _, h'') => (.ok (), ⟨h''⟩)

theorem node_sum_map_sizeOf_le (l : List Node) : (l.map sizeOf).sum ≤ sizeOf l := by
  induction l with
  | nil => simp
  | cons a l ih => simp [List.map_cons]; omega

theorem node_childList_sum_lt (n : Node) : (n.childList.map sizeOf).sum < sizeOf n := by
  match n with
  | .mk p t m c s =>
    match c with
    | none => simp [Node.childList, Node.children]
    | some cs =>
      have := node_sum_map_sizeOf_le cs
      simp [Node.childList, Node.children]
      omega

theorem node_stack_measure_lt (n : Node) (rest : List Node) :
    ((n.childList.reverse ++ rest).map sizeOf).sum < ((n :: rest).map sizeOf).sum := by
  simp [List.map_append, List.sum_append, List.map_reverse, List.sum_reverse]
  have h2 := node_childList_sum_lt n
  omega

/-- Embeds `TreeIterator::next` run to exhaustion: the stack holds the pending
nodes with the top at the head; each step pops the top node, yields it, and
pushes its children (if populated), so that the last-inserted child is on top
of the stack. -/
def Tree.runIter (l : List Node) : List Node :=
  match l with
  | [] => []
  | n :: rest => n :: Tree.runIter (n.childList.reverse ++ rest)
termination_by (l.map sizeOf).sum
decreasing_by
  exact node_stack_measure_lt _ _

/-- Embeds `Tree::iter` consumed to the end: the iterator starts from the
stack `vec![&self.head]`. -/
def Tree.iterList (t : Tree) : List Node := Tree.runIter [t.head]

/-- Embeds `Tree::get_node`: first traversal match by exact path equality. -/
def Tree.get_node (t : Tree) (p : Path) : Option Node :=
  (Tree.iterList t).find? (fun n => n.path == p)

/-- Metadata of a directory created by `create_dir_all`: the model gives fresh
directories empty optional timestamps. -/
def freshMetadata : ExtendedMetadata := ⟨none, none, none⟩

/-- Replace the first entry with the given name in a directory listing. -/
def setEntry (name : String) (e' : Entry) : List (String × Entry) → List (String × Entry)
  | [] => []
  | (k, e) :: rest => if k = name then (k, e') :: rest else (k, e) :: setEntry name e' rest

/-- Embeds `std::fs::create_dir_all` (external collaborator): walk the path,
descending into existing directories and creating every missing component as
an empty, listable directory appended at the end of its parent's entry list.
It fails when a component exists as a non-directory entry; Rust reports such
failures as AlreadyExists / PermissionDenied and the like, never as NotFound,
so every failure maps to `ioError`. -/
def Entry.mkdirAll : Entry → Path → Except FsError Entry
  | .dir m ro es, [] => .ok (.dir m ro es)
  | .file _ _, [] => .error .ioError
  | .broken, [] => .error .ioError
  | .dir m ro es, name :: rest =>
    match findEntry name es with
    | some child =>
      match Entry.mkdirAll child rest with
      | .error e => .error e
      | .ok child' => .ok (.dir m ro (setEntry name child' es))
    | none =>
      match Entry.mkdirAll (.dir freshMetadata true []) rest with
      | .error e => .error e
      | .ok child' => .ok (.dir m ro (es ++ [(name, child')]))
  | .file _ _, _ :: _ => .error .ioError
  | .broken, _ :: _ => .error .ioError

/-- Embeds `Tree::create_dir`: join the root path with the relative path,
`create_dir_all` on disk, refresh the whole tree, then look the new path up
in the refreshed tree, turning a missed lookup into a NotFound error.  The
result carries the disk after the mkdir and the tree after the refresh. -/
def Tree.create_dir (fuel : Nat) (disk : Entry) (t : Tree) (rel : Path) :
    Except FsError Node × Entry × Tree :=
  let newPath := t.head.path ++ rel
  match disk.mkdirAll newPath with
  | .error e => (.error e, disk, t)
  | .ok disk' =>
    match Tree.refresh fuel disk' t with
    | (.error e, t') => (.error e, disk', t')
    | (.ok _, t') =>
      match t'.get_node newPath with
      | some n => (.ok n, disk', t')
      | none => (.error .notFound, disk', t')

/-- One item pulled off the watcher's channel in `FsWatcher::watch`: a
successful filesystem event (carrying the disk state that the triggered
refresh will read) or a notification-source error (`Ok(Err(e))` in the Rust
match).  The end of the item list models channel closure, i.e. `rx.recv()`
returning `Err`. -/
inductive ChanItem where
  | ev (disk : Entry)
  | srcErr

/-- Embeds the event loop of `FsWatcher::watch` (watcher.rs): on an event,
refresh the tree (propagating a refresh failure out of the loop, as the `?`
does); on a notification-source error, log and continue; on channel closure,
break out of the loop and return `Ok(())`. -/
def FsWatcher.watchLoop (fuel : Nat) : List ChanItem → Tree → Except FsError Unit × Tree
  | [], t => (.ok (), t)
  | .srcErr :: rest, t => FsWatcher.watchLoop fuel rest t
  | .ev disk :: rest, t =>
    match Tree.refresh fuel disk t with
    | (.ok _, t') => FsWatcher.watchLoop fuel rest t'
    | (.error e, t') => (.error e, t')


@[simp] theorem Node.path_mk (p t m c s) : (Node.mk p t m c s).path = p := rfl

@[simp] theorem Node.node_type_mk (p t m c s) : (Node.mk p t m c s).node_type = t := rfl

@[simp] theorem Node.metadata_mk (p t m c s) : (Node.mk p t m c s).metadata = m := rfl

@[simp] theorem Node.children_mk (p t m c s) : (Node.mk p t m c s).children = c := rfl

@[simp] theorem Node.size_mk (p t m c s) : (Node.mk p t m c s).size = s := rfl

@[simp] theorem Node.withChildren_mk (p t m c s c') :
    (Node.mk p t m c s).withChildren c' = Node.mk p t m c' s := rfl

@[simp] theorem Node.withSize_mk (p t m c s s') :
    (Node.mk p t m c s).withSize s' = Node.mk p t m c s' := rfl

@[simp] theorem Node.childList_mk (p t m c s) :
    (Node.mk p t m c s).childList = c.getD [] := rfl

@[simp] theorem Node.is_file_mk (p t m c s) :
    (Node.mk p t m c s).is_file = (t == NodeType.File) := by
  cases t <;> rfl

@[simp] theorem Node.is_dir_mk (p t m c s) :
    (Node.mk p t m c s).is_dir = (t == NodeType.Directory) := by
  cases t <;> rfl

theorem Node.sizeOf_pos (n : Node) : 0 < sizeOf n := by
  match n with
  | .mk p t m c s => simp

theorem Node.sizeOf_mem_childList_lt {x : Node} {n : Node} (h : x ∈ n.childList) :
    sizeOf x < sizeOf n := by
  match n with
  | .mk p t m c s =>
    match c with
    | none => simp [Node.childList, Node.children] at h
    | some cs =>
      simp only [Node.childList_mk, Option.getD] at h
      have h1 := List.sizeOf_lt_of_mem h
      simp
      omega

/-- Induction over the in-memory node tree: to prove a property of every
node it is enough to prove it for a node from the property of its children. -/
theorem Node.strongInd (P : Node → Prop)
    (h : ∀ p t m c s, (∀ x ∈ (Option.getD c []), P x) → P (Node.mk p t m c s)) :
    ∀ n, P n := by
  have H : ∀ k (n : Node), sizeOf n ≤ k → P n := by
    intro k
    induction k with
    | zero =>
      intro n hn
      have := Node.sizeOf_pos n
      omega
    | succ k ih =>
      intro n hn
      match n with
      | .mk p t m c s =>
        apply h
        intro x hx
        apply ih
        have hlt : sizeOf x < sizeOf (Node.mk p t m c s) :=
          Node.sizeOf_mem_childList_lt (by simpa [Node.childList, Node.children] using hx)
        omega
  intro n
  exact H (sizeOf n) n le_rfl

theorem node_measure_cons_head (x : Node) (xs : List Node) :
    2 * sizeOf x < 2 * (((x :: xs)).map sizeOf).sum + 1 := by
  simp [List.map_cons]
  omega

theorem node_measure_cons_tail (x : Node) (xs : List Node) :
    2 * ((xs.map sizeOf).sum) + 1 < 2 * (((x :: xs)).map sizeOf).sum + 1 := by
  simp [List.map_cons]
  have := Node.sizeOf_pos x
  omega

mutual

/-- Every node of the in-memory tree rooted at `n` (the node itself first,
then, recursively, the nodes under each populated child in order). -/
def Node.allNodes (n : Node) : List Node :=
  n :: allNodesList n.childList
termination_by 2 * sizeOf n
decreasing_by
  have := node_childList_sum_lt n
  omega

def allNodesList (l : List Node) : List Node :=
  match l with
  | [] => []
  | x :: xs => x.allNodes ++ allNodesList xs
termination_by 2 * (l.map sizeOf).sum + 1
decreasing_by
  · exact node_measure_cons_head _ _
  · exact node_measure_cons_tail _ _

end

mutual

/-- The order in which the stack-based iterator actually yields the nodes:
each node first, then its children subtrees in reverse insertion order. -/
def Node.preorderRev (n : Node) : List Node :=
  n :: preorderRevList n.childList.reverse
termination_by 2 * sizeOf n
decreasing_by
  have h1 := node_childList_sum_lt n
  simp [List.map_reverse, List.sum_reverse]
  omega

def preorderRevList (l : List Node) : List Node :=
  match l with
  | [] => []
  | x :: xs => x.preorderRev ++ preorderRevList xs
termination_by 2 * (l.map sizeOf).sum + 1
decreasing_by
  · exact node_measure_cons_head _ _
  · exact node_measure_cons_tail _ _

end

/-- Number of nodes of the in-memory tree (files plus directories, root
included). -/
def Node.countNodes (n : Node) : Nat := n.allNodes.length

/-- The file nodes transitively under `n` (including `n` itself if it is a
file node). -/
def Node.filesUnder (n : Node) : List Node :=
  n.allNodes.filter (fun m => m.is_file)

/-- Every directory node of the tree has its children populated. -/
def Node.populatedAll (n : Node) : Prop :=
  ∀ m ∈ n.allNodes, m.is_dir = true → m.children.isSome = true


theorem runIter_nil : Tree.runIter [] = [] := by
  simp [Tree.runIter]

theorem runIter_cons (n : Node) (rest : List Node) :
    Tree.runIter (n :: rest) = n :: Tree.runIter (n.childList.reverse ++ rest) := by
  simp only [Tree.runIter]

theorem preorderRevList_nil : preorderRevList [] = [] := by
  simp [preorderRevList]

theorem preorderRevList_cons (x : Node) (xs : List Node) :
    preorderRevList (x :: xs) = x.preorderRev ++ preorderRevList xs := by
  simp only [preorderRevList]

theorem preorderRev_unfold (n : Node) :
    n.preorderRev = n :: preorderRevList n.childList.reverse := by
  simp only [Node.preorderRev]

theorem allNodesList_nil : allNodesList [] = [] := by
  simp [allNodesList]

theorem allNodesList_cons (x : Node) (xs : List Node) :
    allNodesList (x :: xs) = x.allNodes ++ allNodesList xs := by
  simp only [allNodesList]

theorem allNodes_unfold (n : Node) :
    n.allNodes = n :: allNodesList n.childList := by
  simp only [Node.allNodes]

theorem preorderRevList_append (a b : List Node) :
    preorderRevList (a ++ b) = preorderRevList a ++ preorderRevList b := by
  induction a with
  | nil => simp [preorderRevList_nil]
  | cons x xs ih => simp [preorderRevList_cons, ih]

theorem allNodesList_append (a b : List Node) :
    allNodesList (a ++ b) = allNodesList a ++ allNodesList b := by
  induction a with
  | nil => simp [allNodesList_nil]
  | cons x xs ih => simp [allNodesList_cons, ih]

/-- Running the iterator's stack machine yields exactly the reverse-sibling
pre-order of each pending node in turn. -/
theorem runIter_eq_preorderRevList (l : List Node) :
    Tree.runIter l = preorderRevList l := by
  have H : ∀ k (l : List Node), (l.map sizeOf).sum ≤ k →
      Tree.runIter l = preorderRevList l := by
    intro k
    induction k with
    | zero =>
      intro l hl
      match l with
      | [] => simp [runIter_nil, preorderRevList_nil]
      | n :: rest =>
        exfalso
        have := Node.sizeOf_pos n
        simp [List.map_cons] at hl
        omega
    | succ k ih =>
      intro l hl
      match l with
      | [] => simp [runIter_nil, preorderRevList_nil]
      | n :: rest =>
        rw [runIter_cons]
        have hm := node_stack_measure_lt n rest
        simp only [List.map_cons, List.sum_cons] at hl
        have hrec := ih (n.childList.reverse ++ rest) (by
          simp only [List.map_cons, List.sum_cons] at hm
          omega)
        rw [hrec, preorderRevList_append, preorderRevList_cons, preorderRev_unfold]
        simp
  exact H ((l.map sizeOf).sum) l le_rfl

/-- The exact order `Tree::iter` yields: reverse-sibling pre-order from the
root. -/
theorem iterList_eq_preorderRev (t : Tree) :
    Tree.iterList t = t.head.preorderRev := by
  rw [Tree.iterList, runIter_eq_preorderRevList, preorderRevList_cons,
    preorderRevList_nil, List.append_nil]

theorem preorderRevList_perm_of_mem (l : List Node)
    (h : ∀ x ∈ l, x.preorderRev.Perm x.allNodes) :
    (preorderRevList l).Perm (allNodesList l) := by
  induction l with
  | nil => simp [preorderRevList_nil, allNodesList_nil]
  | cons x xs ih =>
    rw [preorderRevList_cons, allNodesList_cons]
    exact (h x (by simp)).append (ih (fun y hy => h y (by simp [hy])))

theorem preorderRevList_reverse_perm (l : List Node) :
    (preorderRevList l.reverse).Perm (preorderRevList l) := by
  induction l with
  | nil => simp [preorderRevList_nil]
  | cons x xs ih =>
    rw [List.reverse_cons, preorderRevList_append, preorderRevList_cons,
      preorderRevList_cons, preorderRevList_nil, List.append_nil]
    exact List.perm_append_comm.trans ((ih.append_left x.preorderRev).symm.symm)

/-- The iterator's order is a permutation of the full node list. -/
theorem preorderRev_perm_allNodes (n : Node) : n.preorderRev.Perm n.allNodes := by
  induction n using Node.strongInd with
  | _ p t m c s ih =>
    rw [preorderRev_unfold, allNodes_unfold]
    apply List.Perm.cons
    have h1 := preorderRevList_reverse_perm (Node.mk p t m c s).childList
    have h2 : (preorderRevList (Node.mk p t m c s).childList).Perm
        (allNodesList (Node.mk p t m c s).childList) := by
      apply preorderRevList_perm_of_mem
      intro x hx
      exact ih x (by simpa [Node.childList, Node.children] using hx)
    exact h1.trans h2


/-- Shape of any `populate_children` outcome: on error the node is returned
untouched; on success either the children were replaced (directory) or the
node is untouched (file). -/
theorem populate_children_sh (fuel : Nat) (disk : Entry) (p : Path) (t : NodeType)
    (m : ExtendedMetadata) (c : Option (List Node)) (s : Nat) :
    (∃ e, Node.populate_children fuel disk (.mk p t m c s) = (.error e, .mk p t m c s)) ∨
    (∃ cs, Node.populate_children fuel disk (.mk p t m c s) = (.ok (), .mk p t m (some cs) s)) ∨
    (Node.populate_children fuel disk (.mk p t m c s) = (.ok (), .mk p t m c s)) := by
  match fuel with
  | 0 => exact .inl ⟨.ioError, rfl⟩
  | fuel + 1 =>
    cases hd : (Node.mk p t m c s).is_dir with
    | false => exact .inr (.inr (by simp [Node.populate_children, hd]))
    | true =>
      cases hr : disk.readDirAt p with
      | error e => exact .inl ⟨e, by simp [Node.populate_children, hd, hr]⟩
      | ok names =>
        cases hb : Node.buildChildren fuel disk p names with
        | error e => exact .inl ⟨e, by simp [Node.populate_children, hd, hr, hb]⟩
        | ok childs =>
          exact .inr (.inl ⟨childs, by simp [Node.populate_children, hd, hr, hb]⟩)

theorem populate_children_error_eq {fuel : Nat} {disk : Entry} {n : Node} {e : FsError}
    {n' : Node} (h : Node.populate_children fuel disk n = (.error e, n')) : n' = n := by
  match n with
  | .mk p t m c s =>
    rcases populate_children_sh fuel disk p t m c s with ⟨e1, hp⟩ | ⟨cs, hp⟩ | hp <;>
      rw [hp] at h <;> injection h with h1 h2
    · exact h2.symm
    · exact absurd h1 (by simp)
    · exact absurd h1 (by simp)

/-- Shape of any `calc_size` outcome: path, type and metadata are never
touched, only children and size. -/
theorem calc_size_sh (fuel : Nat) (disk : Entry) (p : Path) (t : NodeType)
    (m : ExtendedMetadata) (c : Option (List Node)) (s : Nat) :
    ∃ c' s' r, Node.calc_size fuel disk (.mk p t m c s) = (r, .mk p t m c' s') := by
  match fuel with
  | 0 => exact ⟨c, s, .error .ioError, rfl⟩
  | fuel + 1 =>
    cases hf : (Node.mk p t m c s).is_file with
    | true =>
      cases hs : disk.statAt p with
      | error e => exact ⟨c, s, .error e, by simp [Node.calc_size, hf, hs]⟩
      | ok st => exact ⟨c, st.size, .ok (), by simp [Node.calc_size, hf, hs]⟩
    | false =>
      obtain ⟨c1, r1, hp⟩ : ∃ c1 r1, (if c.isNone = true
          then Node.populate_children fuel disk (Node.mk p t m c s)
          else (.ok (), Node.mk p t m c s)) = (r1, Node.mk p t m c1 s) := by
        by_cases hc : c.isNone = true
        · rw [if_pos hc]
          rcases populate_children_sh fuel disk p t m c s with ⟨e1, hq⟩ | ⟨cs, hq⟩ | hq
          · exact ⟨c, .error e1, hq⟩
          · exact ⟨some cs, .ok (), hq⟩
          · exact ⟨c, .ok (), hq⟩
        · rw [if_neg hc]
          exact ⟨c, .ok (), rfl⟩
      match r1, hp with
      | .error e, hp => exact ⟨c1, s, .error e, by simp [Node.calc_size, hf, hp]⟩
      | .ok u, hp =>
        match c1, hp with
        | none, hp => exact ⟨none, 0, .ok (), by simp [Node.calc_size, hf, hp]⟩
        | some cs, hp =>
          cases hcc : Node.calcChildren fuel disk cs with
          | mk rr cs2 =>
            match rr, hcc with
            | .error e, hcc =>
              exact ⟨some cs2, s, .error e, by simp [Node.calc_size, hf, hp, hcc]⟩
            | .ok total, hcc =>
              exact ⟨some cs2, total, .ok (), by simp [Node.calc_size, hf, hp, hcc]⟩


/-- Fixed timestamps used by the concrete disks below. -/
def metaW : ExtendedMetadata := ⟨some 1, some 2, some 3⟩

/-- A disk whose root directory lists a single child whose stat fails. -/
def diskBrokenChild : Entry := .dir metaW true [("a", .broken)]

/-- A disk whose root is an empty, listable directory. -/
def diskEmptyDir : Entry := .dir metaW true []

/-- An unscanned directory node for the disk root. -/
def nodeSeed : Node := .mk [] .Directory metaW none 0

/-- The populated mirror of `diskEmptyDir`. -/
def nodeEmpty : Node := .mk [] .Directory metaW (some []) 0

/-- Concrete sibling nodes for the traversal claims. -/
def cexA : Node := .mk ["r", "a"] .File metaW none 1

def cexB : Node := .mk ["r", "b"] .File metaW none 2

/-- A directory node whose children were inserted in the order `[cexA, cexB]`. -/
def cexH : Node := .mk ["r"] .Directory metaW (some [cexA, cexB]) 3

/-- C1, code bug.  On a disk whose root directory contains one child whose
stat fails with an I/O error, `Node::new` on the root returns `Ok` with a
Directory node whose children were never populated and whose size is 0,
because node.rs drops the `io::Result` values of `populate_children` and
`calc_size` inside `Node::new` instead of propagating them with `?`.  The
claim (and spec, section 7: no silent partial trees) requires the first I/O
failure at any depth to surface as an error. -/
theorem c1_new_returns_ok_despite_child_io_failure :
    Entry.statAt diskBrokenChild ["a"] = .error .ioError ∧
    Node.new 5 diskBrokenChild [] = .ok (Node.mk [] .Directory metaW none 0) :=
  ⟨rfl, rfl⟩

/-- C4, counterexample.  The children of `cexH` were inserted in the order
`[cexA, cexB]`, but the iterator yields `cexB` before `cexA`: sibling visit
order is the reverse of insertion order, not insertion order as claimed. -/
theorem c4_counterexample_sibling_order :
    Tree.iterList ⟨cexH⟩ = [cexH, cexB, cexA] ∧
    cexH.children = some [cexA, cexB] ∧ cexA.path ≠ cexB.path := by
  refine ⟨?_, rfl, by decide⟩
  simp [Tree.iterList, Tree.runIter, cexH, cexA, cexB, Node.childList, Node.children]

/-- C4, amended.  `iter()` visits the tree in pre-order (each node before any
of its descendants), but the siblings are visited in the reverse of the child
insertion order from the last `populate_children` call: the iterator equals
`preorderRev`, which lists a node and then its children subtrees last
inserted first. -/
theorem c4_iter_preorder_reverse_insertion (t : Tree) :
    Tree.iterList t = t.head.preorderRev :=
  iterList_eq_preorderRev t

/-- C3.  Over any tree whose directory nodes are all populated, `iter()`
yields exactly `countNodes` items — one per node of the tree, each exactly
once (the yielded list is a permutation of the full node list). -/
theorem c3_iter_yields_each_node_exactly_once (t : Tree)
    (h : t.head.populatedAll) :
    (Tree.iterList t).length = t.head.countNodes ∧
    (Tree.iterList t).Perm t.head.allNodes := by
  have hp : (Tree.iterList t).Perm t.head.allNodes := by
    rw [iterList_eq_preorderRev]
    exact preorderRev_perm_allNodes t.head
  exact ⟨by rw [Node.countNodes]; exact hp.length_eq, hp⟩

/-- C3, witness at the concrete three-node tree. -/
theorem c3_witness :
    cexH.populatedAll ∧
    ((Tree.iterList ⟨cexH⟩).length = cexH.countNodes ∧
      (Tree.iterList ⟨cexH⟩).Perm cexH.allNodes) := by
  have hp : cexH.populatedAll := by
    rw [Node.populatedAll]
    intro mm hm
    rw [allNodes_unfold] at hm
    simp [cexH, cexA, cexB, Node.childList, Node.children, allNodesList_cons,
      allNodesList_nil, allNodes_unfold] at hm
    rcases hm with h1 | h1 | h1 <;> subst h1 <;> simp [cexH, cexA, cexB]
  exact ⟨hp, c3_iter_yields_each_node_exactly_once ⟨cexH⟩ hp⟩

/-- C7.  Whatever `refresh` does (success or failure), the root node object
is kept: its path, type and metadata are unchanged; only `children` and
`size` can change. -/
theorem c7_refresh_preserves_root_identity (fuel : Nat) (disk : Entry) (t : Tree)
    (r : Except FsError Unit) (t' : Tree) (h : Tree.refresh fuel disk t = (r, t')) :
    t'.head.path = t.head.path ∧ t'.head.node_type = t.head.node_type ∧
      t'.head.metadata = t.head.metadata := by
  obtain ⟨hd⟩ := t
  match hd with
  | .mk p ty m c s =>
    rcases populate_children_sh fuel disk p ty m c s with ⟨e1, hp⟩ | ⟨cs, hp⟩ | hp
    · have hval : Tree.refresh fuel disk ⟨Node.mk p ty m c s⟩ =
          (.error e1, ⟨Node.mk p ty m c s⟩) := by
        simp [Tree.refresh, hp]
      have h2 := hval.symm.trans h
      injection h2 with h3 h4
      rw [← h4]
      exact ⟨rfl, rfl, rfl⟩
    · obtain ⟨c', s', rr, hc⟩ := calc_size_sh fuel disk p ty m (some cs) s
      have hval : Tree.refresh fuel disk ⟨Node.mk p ty m c s⟩ =
          (rr, ⟨Node.mk p ty m c' s'⟩) := by
        match rr, hc with
        | .error e, hc => simp [Tree.refresh, hp, hc]
        | .ok u, hc => simp [Tree.refresh, hp, hc]
      have h2 := hval.symm.trans h
      injection h2 with h3 h4
      rw [← h4]
      exact ⟨rfl, rfl, rfl⟩
    · obtain ⟨c', s', rr, hc⟩ := calc_size_sh fuel disk p ty m c s
      have hval : Tree.refresh fuel disk ⟨Node.mk p ty m c s⟩ =
          (rr, ⟨Node.mk p ty m c' s'⟩) := by
        match rr, hc with
        | .error e, hc => simp [Tree.refresh, hp, hc]
        | .ok u, hc => simp [Tree.refresh, hp, hc]
      have h2 := hval.symm.trans h
      injection h2 with h3 h4
      rw [← h4]
      exact ⟨rfl, rfl, rfl⟩

/-- C7, witness: a successful refresh of the unscanned root against the
empty-directory disk. -/
theorem c7_witness :
    Tree.refresh 3 diskEmptyDir ⟨nodeSeed⟩ = (.ok (), ⟨nodeEmpty⟩) ∧
    ((⟨nodeEmpty⟩ : Tree).head.path = (⟨nodeSeed⟩ : Tree).head.path ∧
      (⟨nodeEmpty⟩ : Tree).head.node_type = (⟨nodeSeed⟩ : Tree).head.node_type ∧
      (⟨nodeEmpty⟩ : Tree).head.metadata = (⟨nodeSeed⟩ : Tree).head.metadata) :=
  ⟨rfl, c7_refresh_preserves_root_identity 3 diskEmptyDir ⟨nodeSeed⟩ (.ok ()) ⟨nodeEmpty⟩ rfl⟩

/-- C8.  In the watcher loop: a notification-source error is logged and the
loop continues with the remaining items; channel closure (end of the items)
terminates the loop, returning control with `Ok(())`; a successfully received
event triggers a full tree refresh, and the rest of the items are processed
against the refreshed tree (on a refresh failure the `?` exits the loop with
that error). -/
theorem c8_watch_loop_behaviour (fuel : Nat) (rest : List ChanItem) (t : Tree)
    (d : Entry) :
    (FsWatcher.watchLoop fuel (.srcErr :: rest) t = FsWatcher.watchLoop fuel rest t) ∧
    (FsWatcher.watchLoop fuel [] t = (.ok (), t)) ∧
    (∀ t', Tree.refresh fuel d t = (.ok (), t') →
      FsWatcher.watchLoop fuel (.ev d :: rest) t = FsWatcher.watchLoop fuel rest t') ∧
    (∀ e t', Tree.refresh fuel d t = (.error e, t') →
      FsWatcher.watchLoop fuel (.ev d :: rest) t = (.error e, t')) := by
  refine ⟨rfl, rfl, ?_, ?_⟩
  · intro t' h
    simp only [FsWatcher.watchLoop, h]
  · intro e t' h
    simp only [FsWatcher.watchLoop, h]

/-- C8, witness: one successful event against the empty-directory disk
refreshes the tree before the loop ends at channel closure. -/
theorem c8_witness :
    Tree.refresh 3 diskEmptyDir ⟨nodeSeed⟩ = (.ok (), ⟨nodeEmpty⟩) ∧
    FsWatcher.watchLoop 3 [.ev diskEmptyDir] ⟨nodeSeed⟩ =
      FsWatcher.watchLoop 3 [] ⟨nodeEmpty⟩ :=
  ⟨rfl, (c8_watch_loop_behaviour 3 [] ⟨nodeSeed⟩ diskEmptyDir).2.2.1 ⟨nodeEmpty⟩ rfl⟩

/-- C10.  Whenever `populate_children` fails, the node's `children` field
still holds exactly the value it had before the call: the partially built
child list is discarded, never installed. -/
theorem c10_populate_error_children_unchanged (fuel : Nat) (disk : Entry)
    (n : Node) (e : FsError) (n' : Node)
    (h : Node.populate_children fuel disk n = (.error e, n')) :
    n'.children = n.children := by
  rw [populate_children_error_eq h]

/-- C10, witness: listing a directory node whose path resolves to a `broken`
entry fails and leaves the node unchanged. -/
theorem c10_witness :
    Node.populate_children 1 diskBrokenChild (Node.mk ["a"] .Directory metaW none 0) =
      (.error .ioError, Node.mk ["a"] .Directory metaW none 0) ∧
    (Node.mk ["a"] .Directory metaW none 0).children =
      (Node.mk ["a"] .Directory metaW none 0).children :=
  ⟨rfl, c10_populate_error_children_unchanged 1 diskBrokenChild
    (Node.mk ["a"] .Directory metaW none 0) .ioError
    (Node.mk ["a"] .Directory metaW none 0) rfl⟩


/-- The structural invariant of claim C9: a File node never has children, at
every depth of the in-memory tree. -/
inductive FInv : Node → Prop
  | fileI (p m s) : FInv (.mk p .File m none s)
  | dirNone (p m s) : FInv (.mk p .Directory m none s)
  | dirSome (p m cs s) : (∀ c ∈ cs, FInv c) → FInv (.mk p .Directory m (some cs) s)

theorem FInv.withSize {n : Node} (h : FInv n) (s : Nat) : FInv (n.withSize s) := by
  cases h with
  | fileI p m s0 => exact .fileI p m s
  | dirNone p m s0 => exact .dirNone p m s
  | dirSome p m cs s0 hcs => exact .dirSome p m cs s hcs

theorem FInv.some_mem {p t m cs s} (h : FInv (Node.mk p t m (some cs) s)) :
    ∀ c ∈ cs, FInv c := by
  cases h with
  | dirSome _ _ _ _ hcs => exact hcs

/-- Fuel induction carrying the C9 invariant through every operation of
node.rs simultaneously. -/
theorem finv_battery (fuel : Nat) :
    (∀ disk p n, Node.new fuel disk p = .ok n → FInv n) ∧
    (∀ disk n r n', Node.populate_children fuel disk n = (r, n') → FInv n → FInv n') ∧
    (∀ disk base names cs, Node.buildChildren fuel disk base names = .ok cs →
      ∀ c ∈ cs, FInv c) ∧
    (∀ disk n r n', Node.calc_size fuel disk n = (r, n') → FInv n → FInv n') ∧
    (∀ disk cs r cs', Node.calcChildren fuel disk cs = (r, cs') →
      (∀ c ∈ cs, FInv c) → ∀ c ∈ cs', FInv c) := by
  induction fuel with
  | zero =>
    refine ⟨?_, ?_, ?_, ?_, ?_⟩
    · intro disk p n h
      exact absurd h (by simp [Node.new])
    · intro disk n r n' h hInv
      injection h with h1 h2
      rw [← h2]
      exact hInv
    · intro disk base names cs h
      exact absurd h (by simp [Node.buildChildren])
    · intro disk n r n' h hInv
      injection h with h1 h2
      rw [← h2]
      exact hInv
    · intro disk cs r cs' h hmem
      injection h with h1 h2
      rw [← h2]
      exact hmem
  | succ fuel ih =>
    obtain ⟨ihNew, ihPop, ihBuild, ihCalc, ihCalcL⟩ := ih
    refine ⟨?_, ?_, ?_, ?_, ?_⟩
    · intro disk p n h
      cases hm : extMetadataAt disk p with
      | error e =>
        rw [(by simp [Node.new, hm] : Node.new (fuel + 1) disk p = .error e)] at h
        exact absurd h (by simp)
      | ok m =>
        cases hst : disk.statAt p with
        | error e =>
          rw [(by simp [Node.new, hm, hst] : Node.new (fuel + 1) disk p = .error e)] at h
          exact absurd h (by simp)
        | ok st =>
          have hval : Node.new (fuel + 1) disk p = .ok ((Node.calc_size fuel disk
              (Node.populate_children fuel disk
                (.mk p (if st.isDir then NodeType.Directory else NodeType.File)
                  m none 0)).2).2) := by
            simp [Node.new, hm, hst]
          rw [hval] at h
          injection h with h1
          rw [← h1]
          have h0 : FInv (Node.mk p (if st.isDir then NodeType.Directory else NodeType.File)
              m none 0) := by
            cases st.isDir
            · exact .fileI p m 0
            · exact .dirNone p m 0
          rcases hq : Node.populate_children fuel disk
              (Node.mk p (if st.isDir then NodeType.Directory else NodeType.File) m none 0)
            with ⟨r1, n1⟩
          have hInv1 : FInv n1 := ihPop disk _ r1 n1 hq h0
          rcases hc : Node.calc_size fuel disk n1 with ⟨r2, n2⟩
          have hInv2 : FInv n2 := ihCalc disk n1 r2 n2 hc hInv1
          exact hInv2
    · intro disk n r n' h hInv
      match n with
      | .mk p t m c s =>
        cases t with
        | File =>
          have hval : Node.populate_children (fuel + 1) disk (Node.mk p .File m c s) =
              (.ok (), Node.mk p .File m c s) := by
            simp [Node.populate_children]
          have h2 := hval.symm.trans h
          injection h2 with h3 h4
          rw [← h4]
          exact hInv
        | Directory =>
          cases hr : disk.readDirAt p with
          | error e =>
            have hval : Node.populate_children (fuel + 1) disk (Node.mk p .Directory m c s) =
                (.error e, Node.mk p .Directory m c s) := by
              simp [Node.populate_children, hr]
            have h2 := hval.symm.trans h
            injection h2 with h3 h4
            rw [← h4]
            exact hInv
          | ok names =>
            cases hb : Node.buildChildren fuel disk p names with
            | error e =>
              have hval : Node.populate_children (fuel + 1) disk (Node.mk p .Directory m c s) =
                  (.error e, Node.mk p .Directory m c s) := by
                simp [Node.populate_children, hr, hb]
              have h2 := hval.symm.trans h
              injection h2 with h3 h4
              rw [← h4]
              exact hInv
            | ok childs =>
              have hval : Node.populate_children (fuel + 1) disk (Node.mk p .Directory m c s) =
                  (.ok (), Node.mk p .Directory m (some childs) s) := by
                simp [Node.populate_children, hr, hb]
              have h2 := hval.symm.trans h
              injection h2 with h3 h4
              rw [← h4]
              exact .dirSome p m childs s (ihBuild disk p names childs hb)
    · intro disk base names cs h
      match names with
      | [] =>
        have hval : Node.buildChildren (fuel + 1) disk base [] = .ok [] := by
          simp [Node.buildChildren]
        have h2 := hval.symm.trans h
        injection h2 with h3
        rw [← h3]
        intro c hc
        exact absurd hc (by simp)
      | name :: rest =>
        cases hn : Node.new fuel disk (base ++ [name]) with
        | error e =>
          have hval : Node.buildChildren (fuel + 1) disk base (name :: rest) = .error e := by
            simp [Node.buildChildren, hn]
          rw [hval] at h
          exact absurd h (by simp)
        | ok c0 =>
          cases hbr : Node.buildChildren fuel disk base rest with
          | error e =>
            have hval : Node.buildChildren (fuel + 1) disk base (name :: rest) = .error e := by
              simp [Node.buildChildren, hn, hbr]
            rw [hval] at h
            exact absurd h (by simp)
          | ok cs2 =>
            have hval : Node.buildChildren (fuel + 1) disk base (name :: rest) =
                .ok (c0 :: cs2) := by
              simp [Node.buildChildren, hn, hbr]
            have h2 := hval.symm.trans h
            injection h2 with h3
            rw [← h3]
            intro c hc
            rcases List.mem_cons.mp hc with h4 | h4
            · rw [h4]; exact ihNew disk (base ++ [name]) c0 hn
            · exact ihBuild disk base rest cs2 hbr c h4
    · intro disk n r n' h hInv
      match n with
      | .mk p t m c s =>
        cases t with
        | File =>
          cases hs : disk.statAt p with
          | error e =>
            have hval : Node.calc_size (fuel + 1) disk (Node.mk p .File m c s) =
                (.error e, Node.mk p .File m c s) := by
              simp [Node.calc_size, hs]
            have h2 := hval.symm.trans h
            injection h2 with h3 h4
            rw [← h4]
            exact hInv
          | ok st =>
            have hval : Node.calc_size (fuel + 1) disk (Node.mk p .File m c s) =
                (.ok (), Node.mk p .File m c st.size) := by
              simp [Node.calc_size, hs]
            have h2 := hval.symm.trans h
            injection h2 with h3 h4
            rw [← h4]
            exact hInv.withSize st.size
        | Directory =>
          cases c with
          | none =>
            rcases hq : Node.populate_children fuel disk (Node.mk p .Directory m none s)
              with ⟨r1, n1⟩
            have hInv1 : FInv n1 := ihPop disk _ r1 n1 hq hInv
            rcases populate_children_sh fuel disk p .Directory m none s
              with ⟨e1, hp⟩ | ⟨cs1, hp⟩ | hp
            · rw [hq] at hp
              injection hp with hp1 hp2
              rw [hp1, hp2] at hq
              have hval : Node.calc_size (fuel + 1) disk (Node.mk p .Directory m none s) =
                  (.error e1, Node.mk p .Directory m none s) := by
                simp [Node.calc_size, hq]
              have h2 := hval.symm.trans h
              injection h2 with h3 h4
              rw [← h4]
              exact hInv
            · rw [hq] at hp
              injection hp with hp1 hp2
              rw [hp1, hp2] at hq
              rw [hp2] at hInv1
              rcases hcc : Node.calcChildren fuel disk cs1 with ⟨rr, cs2⟩
              have hmem2 : ∀ x ∈ cs2, FInv x :=
                ihCalcL disk cs1 rr cs2 hcc (hInv1.some_mem)
              cases rr with
              | error e =>
                have hval : Node.calc_size (fuel + 1) disk (Node.mk p .Directory m none s) =
                    (.error e, Node.mk p .Directory m (some cs2) s) := by
                  simp [Node.calc_size, hq, hcc]
                have h2 := hval.symm.trans h
                injection h2 with h3 h4
                rw [← h4]
                exact .dirSome p m cs2 s hmem2
              | ok total =>
                have hval : Node.calc_size (fuel + 1) disk (Node.mk p .Directory m none s) =
                    (.ok (), Node.mk p .Directory m (some cs2) total) := by
                  simp [Node.calc_size, hq, hcc]
                have h2 := hval.symm.trans h
                injection h2 with h3 h4
                rw [← h4]
                exact .dirSome p m cs2 total hmem2
            · rw [hq] at hp
              injection hp with hp1 hp2
              rw [hp1, hp2] at hq
              have hval : Node.calc_size (fuel + 1) disk (Node.mk p .Directory m none s) =
                  (.ok (), Node.mk p .Directory m none 0) := by
                simp [Node.calc_size, hq]
              have h2 := hval.symm.trans h
              injection h2 with h3 h4
              rw [← h4]
              exact .dirNone p m 0
          | some cs0 =>
            rcases hcc : Node.calcChildren fuel disk cs0 with ⟨rr, cs2⟩
            have hmem2 : ∀ x ∈ cs2, FInv x :=
              ihCalcL disk cs0 rr cs2 hcc (hInv.some_mem)
            cases rr with
            | error e =>
              have hval : Node.calc_size (fuel + 1) disk (Node.mk p .Directory m (some cs0) s) =
                  (.error e, Node.mk p .Directory m (some cs2) s) := by
                simp [Node.calc_size, hcc]
              have h2 := hval.symm.trans h
              injection h2 with h3 h4
              rw [← h4]
              exact .dirSome p m cs2 s hmem2
            | ok total =>
              have hval : Node.calc_size (fuel + 1) disk (Node.mk p .Directory m (some cs0) s) =
                  (.ok (), Node.mk p .Directory m (some cs2) total) := by
                simp [Node.calc_size, hcc]
              have h2 := hval.symm.trans h
              injection h2 with h3 h4
              rw [← h4]
              exact .dirSome p m cs2 total hmem2
    · intro disk cs r cs' h hmem
      match cs with
      | [] =>
        have hval : Node.calcChildren (fuel + 1) disk [] = (.ok 0, []) := by
          simp [Node.calcChildren]
        have h2 := hval.symm.trans h
        injection h2 with h3 h4
        rw [← h4]
        exact fun c hc => absurd hc (by simp)
      | c0 :: rest =>
        rcases h1 : Node.calc_size fuel disk c0 with ⟨r1, c1⟩
        have hInv1 : FInv c1 := ihCalc disk c0 r1 c1 h1 (hmem c0 (by simp))
        have hmemRest : ∀ x ∈ rest, FInv x := fun x hx => hmem x (by simp [hx])
        cases r1 with
        | error e =>
          have hval : Node.calcChildren (fuel + 1) disk (c0 :: rest) =
              (.error e, c1 :: rest) := by
            simp [Node.calcChildren, h1]
          have h2 := hval.symm.trans h
          injection h2 with h3 h4
          rw [← h4]
          intro x hx
          rcases List.mem_cons.mp hx with h5 | h5
          · rw [h5]; exact hInv1
          · exact hmemRest x h5
        | ok u =>
          rcases h2 : Node.calcChildren fuel disk rest with ⟨r2, cs2⟩
          have hmem2 : ∀ x ∈ cs2, FInv x := ihCalcL disk rest r2 cs2 h2 hmemRest
          cases r2 with
          | error e =>
            have hval : Node.calcChildren (fuel + 1) disk (c0 :: rest) =
                (.error e, c1 :: cs2) := by
              simp [Node.calcChildren, h1, h2]
            have h3 := hval.symm.trans h
            injection h3 with h4 h5
            rw [← h5]
            intro x hx
            rcases List.mem_cons.mp hx with h6 | h6
            · rw [h6]; exact hInv1
            · exact hmem2 x h6
          | ok total =>
            have hval : Node.calcChildren (fuel + 1) disk (c0 :: rest) =
                (.ok (c1.size + total), c1 :: cs2) := by
              simp [Node.calcChildren, h1, h2]
            have h3 := hval.symm.trans h
            injection h3 with h4 h5
            rw [← h5]
            intro x hx
            rcases List.mem_cons.mp hx with h6 | h6
            · rw [h6]; exact hInv1
            · exact hmem2 x h6


/-- C9.  Exactly one of `is_file`/`is_dir` holds for every node, a node with
`is_file` true under the invariant has no children, and every operation of
the code (construction, populate_children, size update, refresh) produces or
preserves the invariant that File nodes never have children. -/
theorem c9_file_nodes_never_have_children :
    (∀ n : Node, n.is_file = !n.is_dir) ∧
    (∀ n : Node, FInv n → n.is_file = true → n.children = none) ∧
    (∀ fuel disk p n, Node.new fuel disk p = .ok n → FInv n) ∧
    (∀ fuel disk n r n', Node.populate_children fuel disk n = (r, n') →
      FInv n → FInv n') ∧
    (∀ fuel disk n r n', Node.calc_size fuel disk n = (r, n') → FInv n → FInv n') ∧
    (∀ fuel disk t r t', Tree.refresh fuel disk t = (r, t') →
      FInv t.head → FInv t'.head) := by
  refine ⟨?_, ?_, ?_, ?_, ?_, ?_⟩
  · intro n
    match n with
    | .mk p t m c s => cases t <;> rfl
  · intro n hInv hf
    cases hInv with
    | fileI p m s => rfl
    | dirNone p m s => simp at hf
    | dirSome p m cs s hcs => simp at hf
  · intro fuel disk p n h
    exact (finv_battery fuel).1 disk p n h
  · intro fuel disk n r n' h hInv
    exact (finv_battery fuel).2.1 disk n r n' h hInv
  · intro fuel disk n r n' h hInv
    exact (finv_battery fuel).2.2.2.1 disk n r n' h hInv
  · intro fuel disk t r t' h hInv
    rcases hq : Node.populate_children fuel disk t.head with ⟨r1, h1⟩
    have hInv1 : FInv h1 := (finv_battery fuel).2.1 disk t.head r1 h1 hq hInv
    cases r1 with
    | error e =>
      have hval : Tree.refresh fuel disk t = (.error e, ⟨h1⟩) := by
        simp [Tree.refresh, hq]
      have h2 := hval.symm.trans h
      injection h2 with h3 h4
      rw [← h4]
      exact hInv1
    | ok u =>
      rcases hc : Node.calc_size fuel disk h1 with ⟨r2, h2⟩
      have hInv2 : FInv h2 := (finv_battery fuel).2.2.2.1 disk h1 r2 h2 hc hInv1
      cases r2 with
      | error e =>
        have hval : Tree.refresh fuel disk t = (.error e, ⟨h2⟩) := by
          simp [Tree.refresh, hq, hc]
        have h3 := hval.symm.trans h
        injection h3 with h4 h5
        rw [← h5]
        exact hInv2
      | ok u2 =>
        have hval : Tree.refresh fuel disk t = (.ok (), ⟨h2⟩) := by
          simp [Tree.refresh, hq, hc]
        have h3 := hval.symm.trans h
        injection h3 with h4 h5
        rw [← h5]
        exact hInv2

/-- C9, witness: the predicates disagree on the concrete node, and the
invariant holds for the node constructed from the empty-directory disk. -/
theorem c9_witness :
    (nodeEmpty.is_file = !nodeEmpty.is_dir) ∧ FInv nodeEmpty :=
  ⟨c9_file_nodes_never_have_children.1 nodeEmpty,
   c9_file_nodes_never_have_children.2.2.1 4 diskEmptyDir [] nodeEmpty rfl⟩


/-- Size consistency after a successful `calc_size`: every file node carries
its stat size, every directory node is populated and carries the sum of its
direct children's sizes. -/
inductive SizeOK (disk : Entry) : Node → Prop
  | fileS (p m c s st) : disk.statAt p = .ok st → st.size = s →
      SizeOK disk (.mk p .File m c s)
  | dirS (p m cs s) : s = (cs.map Node.size).sum → (∀ c ∈ cs, SizeOK disk c) →
      SizeOK disk (.mk p .Directory m (some cs) s)

theorem FInv.file_none {p m c s} (h : FInv (Node.mk p .File m c s)) : c = none := by
  cases h
  rfl

/-- A successful `populate_children` on a directory always installs a child
list. -/
theorem populate_ok_dir_some {fuel disk n u n'}
    (h : Node.populate_children fuel disk n = (.ok u, n')) (hd : n.is_dir = true) :
    ∃ cs, n'.children = some cs := by
  match fuel with
  | 0 =>
    injection h with h1 h2
    exact absurd h1 (by simp)
  | fuel + 1 =>
    match n with
    | .mk p t m c s =>
      cases t with
      | File => simp at hd
      | Directory =>
        cases hr : disk.readDirAt p with
        | error e =>
          have hval : Node.populate_children (fuel + 1) disk (Node.mk p .Directory m c s) =
              (.error e, Node.mk p .Directory m c s) := by
            simp [Node.populate_children, hr]
          have h2 := hval.symm.trans h
          injection h2 with h3 h4
          exact absurd h3 (by simp)
        | ok names =>
          cases hb : Node.buildChildren fuel disk p names with
          | error e =>
            have hval : Node.populate_children (fuel + 1) disk (Node.mk p .Directory m c s) =
                (.error e, Node.mk p .Directory m c s) := by
              simp [Node.populate_children, hr, hb]
            have h2 := hval.symm.trans h
            injection h2 with h3 h4
            exact absurd h3 (by simp)
          | ok childs =>
            have hval : Node.populate_children (fuel + 1) disk (Node.mk p .Directory m c s) =
                (.ok (), Node.mk p .Directory m (some childs) s) := by
              simp [Node.populate_children, hr, hb]
            have h2 := hval.symm.trans h
            injection h2 with h3 h4
            rw [← h4]
            exact ⟨childs, rfl⟩

/-- Fuel induction: a successful size update leaves the subtree
size-consistent, and the children loop returns the sum of the updated
children's sizes. -/
theorem sizeok_battery (fuel : Nat) (disk : Entry) :
    (∀ n n', Node.calc_size fuel disk n = (.ok (), n') → SizeOK disk n') ∧
    (∀ cs total cs', Node.calcChildren fuel disk cs = (.ok total, cs') →
      (∀ c ∈ cs', SizeOK disk c) ∧ total = (cs'.map Node.size).sum) := by
  induction fuel with
  | zero =>
    constructor
    · intro n n' h
      injection h with h1 h2
      exact absurd h1 (by simp)
    · intro cs total cs' h
      injection h with h1 h2
      exact absurd h1 (by simp)
  | succ fuel ih =>
    obtain ⟨ihCalc, ihCalcL⟩ := ih
    constructor
    · intro n n' h
      match n with
      | .mk p t m c s =>
        cases t with
        | File =>
          cases hs : disk.statAt p with
          | error e =>
            have hval : Node.calc_size (fuel + 1) disk (Node.mk p .File m c s) =
                (.error e, Node.mk p .File m c s) := by
              simp [Node.calc_size, hs]
            have h2 := hval.symm.trans h
            injection h2 with h3 h4
            exact absurd h3 (by simp)
          | ok st =>
            have hval : Node.calc_size (fuel + 1) disk (Node.mk p .File m c s) =
                (.ok (), Node.mk p .File m c st.size) := by
              simp [Node.calc_size, hs]
            have h2 := hval.symm.trans h
            injection h2 with h3 h4
            rw [← h4]
            exact .fileS p m c st.size st hs rfl
        | Directory =>
          cases c with
          | none =>
            rcases populate_children_sh fuel disk p .Directory m none s
              with ⟨e1, hp⟩ | ⟨cs1, hp⟩ | hp
            · have hval : Node.calc_size (fuel + 1) disk (Node.mk p .Directory m none s) =
                  (.error e1, Node.mk p .Directory m none s) := by
                simp [Node.calc_size, hp]
              have h2 := hval.symm.trans h
              injection h2 with h3 h4
              exact absurd h3 (by simp)
            · rcases hcc : Node.calcChildren fuel disk cs1 with ⟨rr, cs2⟩
              cases rr with
              | error e =>
                have hval : Node.calc_size (fuel + 1) disk (Node.mk p .Directory m none s) =
                    (.error e, Node.mk p .Directory m (some cs2) s) := by
                  simp [Node.calc_size, hp, hcc]
                have h2 := hval.symm.trans h
                injection h2 with h3 h4
                exact absurd h3 (by simp)
              | ok total =>
                have hval : Node.calc_size (fuel + 1) disk (Node.mk p .Directory m none s) =
                    (.ok (), Node.mk p .Directory m (some cs2) total) := by
                  simp [Node.calc_size, hp, hcc]
                have h2 := hval.symm.trans h
                injection h2 with h3 h4
                rw [← h4]
                obtain ⟨hmem, hsum⟩ := ihCalcL cs1 total cs2 hcc
                exact .dirS p m cs2 total hsum hmem
            · exfalso
              obtain ⟨cs1, hcs⟩ := populate_ok_dir_some hp (by simp)
              simp at hcs
          | some cs0 =>
            rcases hcc : Node.calcChildren fuel disk cs0 with ⟨rr, cs2⟩
            cases rr with
            | error e =>
              have hval : Node.calc_size (fuel + 1) disk
                  (Node.mk p .Directory m (some cs0) s) =
                  (.error e, Node.mk p .Directory m (some cs2) s) := by
                simp [Node.calc_size, hcc]
              have h2 := hval.symm.trans h
              injection h2 with h3 h4
              exact absurd h3 (by simp)
            | ok total =>
              have hval : Node.calc_size (fuel + 1) disk
                  (Node.mk p .Directory m (some cs0) s) =
                  (.ok (), Node.mk p .Directory m (some cs2) total) := by
                simp [Node.calc_size, hcc]
              have h2 := hval.symm.trans h
              injection h2 with h3 h4
              rw [← h4]
              obtain ⟨hmem, hsum⟩ := ihCalcL cs0 total cs2 hcc
              exact .dirS p m cs2 total hsum hmem
    · intro cs total cs' h
      match cs with
      | [] =>
        have hval : Node.calcChildren (fuel + 1) disk [] = (.ok 0, []) := by
          simp [Node.calcChildren]
        have h2 := hval.symm.trans h
        injection h2 with h3 h4
        injection h3 with h3
        rw [← h4, ← h3]
        exact ⟨fun c hc => absurd hc (by simp), rfl⟩
      | c0 :: rest =>
        rcases h1 : Node.calc_size fuel disk c0 with ⟨r1, c1⟩
        cases r1 with
        | error e =>
          have hval : Node.calcChildren (fuel + 1) disk (c0 :: rest) =
              (.error e, c1 :: rest) := by
            simp [Node.calcChildren, h1]
          have h2 := hval.symm.trans h
          injection h2 with h3 h4
          exact absurd h3 (by simp)
        | ok u =>
          cases u
          rcases h2 : Node.calcChildren fuel disk rest with ⟨r2, cs2⟩
          cases r2 with
          | error e =>
            have hval : Node.calcChildren (fuel + 1) disk (c0 :: rest) =
                (.error e, c1 :: cs2) := by
              simp [Node.calcChildren, h1, h2]
            have h3 := hval.symm.trans h
            injection h3 with h4 h5
            exact absurd h4 (by simp)
          | ok tot2 =>
            have hval : Node.calcChildren (fuel + 1) disk (c0 :: rest) =
                (.ok (c1.size + tot2), c1 :: cs2) := by
              simp [Node.calcChildren, h1, h2]
            have h3 := hval.symm.trans h
            injection h3 with h4 h5
            injection h4 with h4
            rw [← h5, ← h4]
            obtain ⟨hmem2, hsum2⟩ := ihCalcL rest tot2 cs2 h2
            refine ⟨?_, by simp [hsum2]⟩
            intro x hx
            rcases List.mem_cons.mp hx with h6 | h6
            · rw [h6]
              exact ihCalc c0 c1 h1
            · exact hmem2 x h6


theorem filesUnder_sum_list (l : List Node)
    (h : ∀ c ∈ l, c.size = ((c.filesUnder).map Node.size).sum) :
    (((allNodesList l).filter (fun m => m.is_file)).map Node.size).sum =
      (l.map Node.size).sum := by
  induction l with
  | nil => simp [allNodesList_nil]
  | cons c rest ih =>
    rw [allNodesList_cons, List.filter_append, List.map_append, List.sum_append,
      List.map_cons, List.sum_cons]
    have h1 := (h c (by simp)).symm
    simp only [Node.filesUnder] at h1
    rw [h1, ih (fun x hx => h x (by simp [hx]))]

theorem mem_filter_allNodesList {P : Node → Prop} (l : List Node)
    (h : ∀ c ∈ l, ∀ f ∈ c.filesUnder, P f) :
    ∀ f ∈ (allNodesList l).filter (fun m => m.is_file), P f := by
  induction l with
  | nil => simp [allNodesList_nil]
  | cons c rest ih =>
    intro f hf
    rw [allNodesList_cons, List.filter_append] at hf
    rcases List.mem_append.mp hf with h1 | h1
    · exact h c (by simp) f (by simpa [Node.filesUnder] using h1)
    · exact ih (fun x hx => h x (by simp [hx])) f h1

/-- Under the File-no-children invariant, size consistency makes every
node's size the sum of the stat sizes of the file nodes under it. -/
theorem sizeOK_correct {disk : Entry} {n : Node} (h : SizeOK disk n) :
    FInv n →
    n.size = ((n.filesUnder).map Node.size).sum ∧
    ∀ f ∈ n.filesUnder, ∃ st, disk.statAt f.path = .ok st ∧ st.size = f.size := by
  induction h with
  | fileS p m c s st hstat hsz =>
    intro hf
    have hc := hf.file_none
    subst hc
    have hfu : (Node.mk p .File m none s).filesUnder = [Node.mk p .File m none s] := by
      simp [Node.filesUnder, allNodes_unfold, allNodesList_nil, Node.childList,
        Node.children, Node.is_file]
    rw [hfu]
    constructor
    · simp
    · intro f hfm
      simp at hfm
      subst hfm
      exact ⟨st, hstat, by simp [hsz]⟩
  | dirS p m cs s hsum hmem ih =>
    intro hf
    have hfs : ∀ c ∈ cs, FInv c := hf.some_mem
    have hfu : (Node.mk p .Directory m (some cs) s).filesUnder =
        (allNodesList cs).filter (fun m => m.is_file) := by
      simp [Node.filesUnder, allNodes_unfold, Node.childList, Node.children,
        List.filter_cons, Node.is_file]
    rw [hfu]
    constructor
    · rw [filesUnder_sum_list cs (fun c hc => (ih c hc (hfs c hc)).1)]
      simpa using hsum
    · exact mem_filter_allNodesList cs (fun c hc => (ih c hc (hfs c hc)).2)

/-- C2.  Whenever a size update (`calc_size`, named `update_size` by tree.rs)
succeeds on a node satisfying the File-no-children invariant, the resulting
subtree is size-consistent: every populated directory's size is the sum of
its direct children's sizes recursively, and consequently the node's size
equals the sum of the on-disk byte lengths of all File nodes transitively
under it (each file node's recorded size being its stat size). -/
theorem c2_calc_size_ok_sizes_correct (fuel : Nat) (disk : Entry) (n n' : Node)
    (hInv : FInv n) (h : Node.calc_size fuel disk n = (.ok (), n')) :
    SizeOK disk n' ∧
    n'.size = ((n'.filesUnder).map Node.size).sum ∧
    ∀ f ∈ n'.filesUnder, ∃ st, disk.statAt f.path = .ok st ∧ st.size = f.size := by
  have hok : SizeOK disk n' := (sizeok_battery fuel disk).1 n n' h
  have hf' : FInv n' := (finv_battery fuel).2.2.2.1 disk n (.ok ()) n' h hInv
  have hc := sizeOK_correct hok hf'
  exact ⟨hok, hc.1, hc.2⟩

/-- C2, witness: updating the unscanned root of the empty-directory disk
yields its populated zero-size mirror. -/
theorem c2_witness :
    FInv nodeSeed ∧
    Node.calc_size 3 diskEmptyDir nodeSeed = (.ok (), nodeEmpty) ∧
    (SizeOK diskEmptyDir nodeEmpty ∧
      nodeEmpty.size = ((nodeEmpty.filesUnder).map Node.size).sum ∧
      ∀ f ∈ nodeEmpty.filesUnder, ∃ st, diskEmptyDir.statAt f.path = .ok st ∧
        st.size = f.size) :=
  ⟨FInv.dirNone [] metaW 0, rfl,
   c2_calc_size_ok_sizes_correct 3 diskEmptyDir nodeSeed nodeEmpty
     (FInv.dirNone [] metaW 0) rfl⟩


/-- On a directory node, `populate_children` behaves the same whatever the
current children and size are: the listing outcome depends only on the disk,
the path and the fuel. -/
theorem populate_dir_agnostic (fuel : Nat) (disk : Entry) (p : Path)
    (m : ExtendedMetadata) (c : Option (List Node)) (s : Nat)
    (c₂ : Option (List Node)) (s₂ : Nat) :
    (∃ e, Node.populate_children fuel disk (.mk p .Directory m c s) =
        (.error e, .mk p .Directory m c s) ∧
      Node.populate_children fuel disk (.mk p .Directory m c₂ s₂) =
        (.error e, .mk p .Directory m c₂ s₂)) ∨
    (∃ childs, Node.populate_children fuel disk (.mk p .Directory m c s) =
        (.ok (), .mk p .Directory m (some childs) s) ∧
      Node.populate_children fuel disk (.mk p .Directory m c₂ s₂) =
        (.ok (), .mk p .Directory m (some childs) s₂)) := by
  match fuel with
  | 0 => exact .inl ⟨.ioError, rfl, rfl⟩
  | fuel + 1 =>
    cases hr : disk.readDirAt p with
    | error e =>
      exact .inl ⟨e, by simp [Node.populate_children, hr], by simp [Node.populate_children, hr]⟩
    | ok names =>
      cases hb : Node.buildChildren fuel disk p names with
      | error e =>
        exact .inl ⟨e, by simp [Node.populate_children, hr, hb],
          by simp [Node.populate_children, hr, hb]⟩
      | ok childs =>
        exact .inr ⟨childs, by simp [Node.populate_children, hr, hb],
          by simp [Node.populate_children, hr, hb]⟩

/-- A successful `calc_size` does not depend on the node's incoming size
field: the size slot is write-only on every success path. -/
theorem calc_ok_agnostic (fuel : Nat) (disk : Entry) (p : Path) (t : NodeType)
    (m : ExtendedMetadata) (c : Option (List Node)) (s s₂ : Nat)
    (c' : Option (List Node)) (u : Nat)
    (h : Node.calc_size fuel disk (.mk p t m c s) = (.ok (), .mk p t m c' u)) :
    Node.calc_size fuel disk (.mk p t m c s₂) = (.ok (), .mk p t m c' u) := by
  match fuel with
  | 0 =>
    injection h with h1 h2
    exact absurd h1 (by simp)
  | fuel + 1 =>
    cases t with
    | File =>
      cases hs : disk.statAt p with
      | error e =>
        have hval : Node.calc_size (fuel + 1) disk (Node.mk p .File m c s) =
            (.error e, Node.mk p .File m c s) := by
          simp [Node.calc_size, hs]
        have h2 := hval.symm.trans h
        injection h2 with h3 h4
        exact absurd h3 (by simp)
      | ok st =>
        have hval : Node.calc_size (fuel + 1) disk (Node.mk p .File m c s) =
            (.ok (), Node.mk p .File m c st.size) := by
          simp [Node.calc_size, hs]
        have h2 := hval.symm.trans h
        injection h2 with h3 h4
        injection h4 with h4a h4b h4c h4d h4e
        rw [← h4d, ← h4e]
        simp [Node.calc_size, hs]
    | Directory =>
      cases c with
      | some cs0 =>
        rcases hcc : Node.calcChildren fuel disk cs0 with ⟨rr, cs2⟩
        cases rr with
        | error e =>
          have hval : Node.calc_size (fuel + 1) disk
              (Node.mk p .Directory m (some cs0) s) =
              (.error e, Node.mk p .Directory m (some cs2) s) := by
            simp [Node.calc_size, hcc]
          have h2 := hval.symm.trans h
          injection h2 with h3 h4
          exact absurd h3 (by simp)
        | ok total =>
          have hval : Node.calc_size (fuel + 1) disk
              (Node.mk p .Directory m (some cs0) s) =
              (.ok (), Node.mk p .Directory m (some cs2) total) := by
            simp [Node.calc_size, hcc]
          have h2 := hval.symm.trans h
          injection h2 with h3 h4
          injection h4 with h4a h4b h4c h4d h4e
          rw [← h4d, ← h4e]
          simp [Node.calc_size, hcc]
      | none =>
        rcases populate_dir_agnostic fuel disk p m none s none s₂
          with ⟨e, hp1, hp2⟩ | ⟨childs, hp1, hp2⟩
        · have hval : Node.calc_size (fuel + 1) disk (Node.mk p .Directory m none s) =
              (.error e, Node.mk p .Directory m none s) := by
            simp [Node.calc_size, hp1]
          have h2 := hval.symm.trans h
          injection h2 with h3 h4
          exact absurd h3 (by simp)
        · rcases hcc : Node.calcChildren fuel disk childs with ⟨rr, cs2⟩
          cases rr with
          | error e =>
            have hval : Node.calc_size (fuel + 1) disk (Node.mk p .Directory m none s) =
                (.error e, Node.mk p .Directory m (some cs2) s) := by
              simp [Node.calc_size, hp1, hcc]
            have h2 := hval.symm.trans h
            injection h2 with h3 h4
            exact absurd h3 (by simp)
          | ok total =>
            have hval : Node.calc_size (fuel + 1) disk (Node.mk p .Directory m none s) =
                (.ok (), Node.mk p .Directory m (some cs2) total) := by
              simp [Node.calc_size, hp1, hcc]
            have h2 := hval.symm.trans h
            injection h2 with h3 h4
            injection h4 with h4a h4b h4c h4d h4e
            rw [← h4d, ← h4e]
            simp [Node.calc_size, hp2, hcc]

/-- C6.  If `refresh` succeeds, running `refresh` again against the same
(unchanged) disk succeeds and returns the very same tree — in particular the
aggregate size at every node is identical after each of the two calls. -/
theorem c6_refresh_idempotent (fuel : Nat) (disk : Entry) (t t₁ : Tree)
    (h : Tree.refresh fuel disk t = (.ok (), t₁)) :
    Tree.refresh fuel disk t₁ = (.ok (), t₁) := by
  obtain ⟨hd⟩ := t
  match hd with
  | .mk p ty m c s =>
    match fuel with
    | 0 =>
      have hval : Tree.refresh 0 disk ⟨Node.mk p ty m c s⟩ =
          (.error .ioError, ⟨Node.mk p ty m c s⟩) := by
        simp [Tree.refresh, Node.populate_children]
      have h2 := hval.symm.trans h
      injection h2 with h3 h4
      exact absurd h3 (by simp)
    | fuel + 1 =>
      cases ty with
      | File =>
        cases hs : disk.statAt p with
        | error e =>
          have hval : Tree.refresh (fuel + 1) disk ⟨Node.mk p .File m c s⟩ =
              (.error e, ⟨Node.mk p .File m c s⟩) := by
            simp [Tree.refresh, Node.populate_children, Node.calc_size, hs]
          have h2 := hval.symm.trans h
          injection h2 with h3 h4
          exact absurd h3 (by simp)
        | ok st =>
          have hval : Tree.refresh (fuel + 1) disk ⟨Node.mk p .File m c s⟩ =
              (.ok (), ⟨Node.mk p .File m c st.size⟩) := by
            simp [Tree.refresh, Node.populate_children, Node.calc_size, hs]
          have h2 := hval.symm.trans h
          injection h2 with h3 h4
          rw [← h4]
          simp [Tree.refresh, Node.populate_children, Node.calc_size, hs]
      | Directory =>
        rcases populate_dir_agnostic (fuel + 1) disk p m c s c s
          with ⟨e, hp1, _⟩ | ⟨childs, hp1, _⟩
        · have hval : Tree.refresh (fuel + 1) disk ⟨Node.mk p .Directory m c s⟩ =
              (.error e, ⟨Node.mk p .Directory m c s⟩) := by
            simp [Tree.refresh, hp1]
          have h2 := hval.symm.trans h
          injection h2 with h3 h4
          exact absurd h3 (by simp)
        · rcases hc : Node.calc_size (fuel + 1) disk (Node.mk p .Directory m (some childs) s)
            with ⟨r2, n2⟩
          cases r2 with
          | error e =>
            have hval : Tree.refresh (fuel + 1) disk ⟨Node.mk p .Directory m c s⟩ =
                (.error e, ⟨n2⟩) := by
              simp [Tree.refresh, hp1, hc]
            have h2 := hval.symm.trans h
            injection h2 with h3 h4
            exact absurd h3 (by simp)
          | ok u2 =>
            cases u2
            have hval : Tree.refresh (fuel + 1) disk ⟨Node.mk p .Directory m c s⟩ =
                (.ok (), ⟨n2⟩) := by
              simp [Tree.refresh, hp1, hc]
            have h2 := hval.symm.trans h
            injection h2 with h3 h4
            obtain ⟨c', s', rr, hcs⟩ := calc_size_sh (fuel + 1) disk p .Directory m (some childs) s
            have h5 := hc.symm.trans hcs
            injection h5 with h6 h7
            rw [← h4, h7]
            rcases populate_dir_agnostic (fuel + 1) disk p m c s c' s'
              with ⟨e, hq1, _⟩ | ⟨childs2, hq1, hq2⟩
            · rw [hp1] at hq1
              injection hq1 with hq3 hq4
              exact absurd hq3 (by simp)
            · rw [hp1] at hq1
              injection hq1 with hq3 hq4
              injection hq4 with hq4a hq4b hq4c hq4d hq4e
              injection hq4d with hq4d
              rw [← hq4d] at hq2
              have hcalc2 : Node.calc_size (fuel + 1) disk
                  (Node.mk p .Directory m (some childs) s') =
                  (.ok (), Node.mk p .Directory m c' s') := by
                apply calc_ok_agnostic (fuel + 1) disk p .Directory m (some childs) s s' c' s'
                rw [hc, h7]
              simp [Tree.refresh, hq2, hcalc2]

/-- C6, witness: refreshing the freshly refreshed empty-directory tree
returns it unchanged. -/
theorem c6_witness :
    Tree.refresh 3 diskEmptyDir ⟨nodeSeed⟩ = (.ok (), ⟨nodeEmpty⟩) ∧
    Tree.refresh 3 diskEmptyDir ⟨nodeEmpty⟩ = (.ok (), ⟨nodeEmpty⟩) :=
  ⟨rfl, c6_refresh_idempotent 3 diskEmptyDir ⟨nodeSeed⟩ ⟨nodeEmpty⟩ rfl⟩


theorem findEntry_setEntry {name : String} {es : List (String × Entry)} {child : Entry}
    (h : findEntry name es = some child) (e' : Entry) :
    findEntry name (setEntry name e' es) = some e' := by
  induction es with
  | nil => simp [findEntry] at h
  | cons pr rest ih =>
    obtain ⟨k, e⟩ := pr
    by_cases hk : k = name
    · simp [findEntry, setEntry, hk]
    · simp [findEntry, setEntry, hk] at h ⊢
      exact ih h

theorem findEntry_append_of_none {name : String} {es : List (String × Entry)}
    (h : findEntry name es = none) (e' : Entry) :
    findEntry name (es ++ [(name, e')]) = some e' := by
  induction es with
  | nil => simp [findEntry]
  | cons pr rest ih =>
    obtain ⟨k, e⟩ := pr
    by_cases hk : k = name
    · simp [findEntry, hk] at h
    · simp [findEntry, hk] at h ⊢
      exact ih h

theorem findEntry_isSome_of_mem {name : String} {es : List (String × Entry)}
    (h : name ∈ es.map Prod.fst) : (findEntry name es).isSome = true := by
  induction es with
  | nil => simp at h
  | cons pr rest ih =>
    obtain ⟨k, e⟩ := pr
    by_cases hk : k = name
    · simp [findEntry, hk]
    · simp [findEntry, hk]
      rcases List.mem_cons.mp h with h1 | h1
      · exact absurd h1.symm hk
      · exact ih h1

theorem lookup_append (p₁ p₂ : Path) (d : Entry) :
    d.lookup (p₁ ++ p₂) = (d.lookup p₁).bind (fun e => e.lookup p₂) := by
  induction p₁ generalizing d with
  | nil => simp [Entry.lookup]
  | cons a rest ih =>
    match d with
    | .file m sz => simp [Entry.lookup]
    | .broken => simp [Entry.lookup]
    | .dir m ro es =>
      cases hf : findEntry a es with
      | none => simp [Entry.lookup, hf]
      | some child => simp [Entry.lookup, hf, ih]

theorem statAt_ok_isSome {disk : Entry} {p : Path} {st : StatInfo}
    (h : disk.statAt p = .ok st) : (disk.lookup p).isSome = true := by
  unfold Entry.statAt at h
  cases hl : disk.lookup p with
  | none => rw [hl] at h; simp at h
  | some e => simp [hl]

theorem statAt_isSome_error_kind {disk : Entry} {p : Path} {e : FsError}
    (hsome : (disk.lookup p).isSome = true) (h : disk.statAt p = .error e) :
    e = .ioError := by
  unfold Entry.statAt at h
  cases hl : disk.lookup p with
  | none => rw [hl] at hsome; simp at hsome
  | some en =>
    rw [hl] at h
    match en, h with
    | .broken, h => injection h with h1; exact h1.symm
    | .file m sz, h => simp at h
    | .dir m ro es, h => simp at h

theorem readDirAt_isSome_error_kind {disk : Entry} {p : Path} {e : FsError}
    (hsome : (disk.lookup p).isSome = true) (h : disk.readDirAt p = .error e) :
    e = .ioError := by
  unfold Entry.readDirAt at h
  cases hl : disk.lookup p with
  | none => rw [hl] at hsome; simp at hsome
  | some en =>
    rw [hl] at h
    match en, h with
    | .broken, h => injection h with h1; exact h1.symm
    | .file m sz, h => injection h with h1; exact h1.symm
    | .dir m true es, h => simp at h
    | .dir m false es, h => injection h with h1; exact h1.symm

/-- Every name listed by a successful `read_dir` resolves on the disk. -/
theorem readDirAt_mem_isSome {disk : Entry} {p : Path} {names : List String}
    (h : disk.readDirAt p = .ok names) :
    ∀ name ∈ names, (disk.lookup (p ++ [name])).isSome = true := by
  unfold Entry.readDirAt at h
  cases hl : disk.lookup p with
  | none => rw [hl] at h; simp at h
  | some en =>
    rw [hl] at h
    match en, h with
    | .dir m true es, h =>
      injection h with h1
      intro name hm
      rw [← h1] at hm
      rw [lookup_append, hl]
      have hfind := @findEntry_isSome_of_mem name es (by simpa using hm)
      obtain ⟨child, hchild⟩ := Option.isSome_iff_exists.mp hfind
      simp [Entry.lookup, hchild]
    | .dir m false es, h => simp at h
    | .file m sz, h => simp at h
    | .broken, h => simp at h

theorem mkdirAll_error_kind {d : Entry} {q : Path} {e : FsError}
    (h : d.mkdirAll q = .error e) : e = .ioError := by
  induction q generalizing d e with
  | nil =>
    match d, h with
    | .dir m ro es, h => simp [Entry.mkdirAll] at h
    | .file m sz, h => injection h with h1; exact h1.symm
    | .broken, h => injection h with h1; exact h1.symm
  | cons name rest ih =>
    match d, h with
    | .file m sz, h => injection h with h1; exact h1.symm
    | .broken, h => injection h with h1; exact h1.symm
    | .dir m ro es, h =>
      cases hf : findEntry name es with
      | some child =>
        cases hm : child.mkdirAll rest with
        | error e2 =>
          have hval : Entry.mkdirAll (.dir m ro es) (name :: rest) = .error e2 := by
            simp [Entry.mkdirAll, hf, hm]
          rw [hval] at h
          injection h with h1
          rw [← h1]
          exact ih hm
        | ok child' =>
          have hval : Entry.mkdirAll (.dir m ro es) (name :: rest) =
              .ok (.dir m ro (setEntry name child' es)) := by
            simp [Entry.mkdirAll, hf, hm]
          rw [hval] at h
          simp at h
      | none =>
        cases hm : Entry.mkdirAll (.dir freshMetadata true []) rest with
        | error e2 =>
          have hval : Entry.mkdirAll (.dir m ro es) (name :: rest) = .error e2 := by
            simp [Entry.mkdirAll, hf, hm]
          rw [hval] at h
          injection h with h1
          rw [← h1]
          exact ih hm
        | ok child' =>
          have hval : Entry.mkdirAll (.dir m ro es) (name :: rest) =
              .ok (.dir m ro (es ++ [(name, child')])) := by
            simp [Entry.mkdirAll, hf, hm]
          rw [hval] at h
          simp at h

/-- After a successful `create_dir_all`, every prefix of the created path is
a directory on the resulting disk. -/
theorem mkdirAll_ok_prefix_dirs {d d' : Entry} {q : Path}
    (h : d.mkdirAll q = .ok d') :
    ∀ k, k ≤ q.length → ∃ m ro es, d'.lookup (q.take k) = some (.dir m ro es) := by
  induction q generalizing d d' with
  | nil =>
    intro k hk
    simp at hk
    subst hk
    match d, h with
    | .dir m ro es, h =>
      injection h with h1
      exact ⟨m, ro, es, by rw [← h1]; simp [Entry.lookup]⟩
    | .file m sz, h => simp [Entry.mkdirAll] at h
    | .broken, h => simp [Entry.mkdirAll] at h
  | cons name rest ih =>
    intro k hk
    match d, h with
    | .file m sz, h => simp [Entry.mkdirAll] at h
    | .broken, h => simp [Entry.mkdirAll] at h
    | .dir m ro es, h =>
      cases hf : findEntry name es with
      | some child =>
        cases hm : child.mkdirAll rest with
        | error e2 =>
          have hval : Entry.mkdirAll (.dir m ro es) (name :: rest) = .error e2 := by
            simp [Entry.mkdirAll, hf, hm]
          rw [hval] at h
          simp at h
        | ok child' =>
          have hval : Entry.mkdirAll (.dir m ro es) (name :: rest) =
              .ok (.dir m ro (setEntry name child' es)) := by
            simp [Entry.mkdirAll, hf, hm]
          rw [hval] at h
          injection h with h1
          rw [← h1]
          match k, hk with
          | 0, hk => exact ⟨m, ro, setEntry name child' es, by simp [Entry.lookup]⟩
          | j + 1, hk =>
            simp only [List.take_succ_cons]
            have hfind := findEntry_setEntry hf child'
            have hrest := ih hm j (by simpa using hk)
            obtain ⟨m2, ro2, es2, hl2⟩ := hrest
            exact ⟨m2, ro2, es2, by simp [Entry.lookup, hfind, hl2]⟩
      | none =>
        cases hm : Entry.mkdirAll (.dir freshMetadata true []) rest with
        | error e2 =>
          have hval : Entry.mkdirAll (.dir m ro es) (name :: rest) = .error e2 := by
            simp [Entry.mkdirAll, hf, hm]
          rw [hval] at h
          simp at h
        | ok child' =>
          have hval : Entry.mkdirAll (.dir m ro es) (name :: rest) =
              .ok (.dir m ro (es ++ [(name, child')])) := by
            simp [Entry.mkdirAll, hf, hm]
          rw [hval] at h
          injection h with h1
          rw [← h1]
          match k, hk with
          | 0, hk => exact ⟨m, ro, es ++ [(name, child')], by simp [Entry.lookup]⟩
          | j + 1, hk =>
            simp only [List.take_succ_cons]
            have hfind := findEntry_append_of_none hf child'
            have hrest := ih hm j (by simpa using hk)
            obtain ⟨m2, ro2, es2, hl2⟩ := hrest
            exact ⟨m2, ro2, es2, by simp [Entry.lookup, hfind, hl2]⟩


/-- A node is live on a disk when its own path resolves, and all populated
children of directory nodes are recursively live.  Nodes freshly built from
the disk are live, which is what makes refresh errors non-NotFound. -/
inductive Live (disk : Entry) : Node → Prop
  | fileL (p m c s) : (disk.lookup p).isSome = true → Live disk (.mk p .File m c s)
  | dirL (p m c s) : (disk.lookup p).isSome = true →
      (∀ cs, c = some cs → ∀ x ∈ cs, Live disk x) → Live disk (.mk p .Directory m c s)

theorem Live.isSome {disk : Entry} {n : Node} (h : Live disk n) :
    (disk.lookup n.path).isSome = true := by
  cases h with
  | fileL p m c s hs => exact hs
  | dirL p m c s hs hmem => exact hs

theorem Live.mem {disk : Entry} {p m cs s}
    (h : Live disk (Node.mk p .Directory m (some cs) s)) : ∀ x ∈ cs, Live disk x := by
  cases h with
  | dirL _ _ _ _ hs hmem => exact hmem cs rfl

/-- Fuel induction: freshly constructed nodes are live, and the mutating
operations keep nodes live. -/
theorem live_battery (fuel : Nat) :
    (∀ disk p n, Node.new fuel disk p = .ok n → Live disk n) ∧
    (∀ disk base names cs, Node.buildChildren fuel disk base names = .ok cs →
      ∀ c ∈ cs, Live disk c) ∧
    (∀ disk n u n', (disk.lookup n.path).isSome = true →
      Node.populate_children fuel disk n = (.ok u, n') → Live disk n') ∧
    (∀ disk n r n', Live disk n → Node.calc_size fuel disk n = (r, n') → Live disk n') ∧
    (∀ disk cs r cs', (∀ c ∈ cs, Live disk c) →
      Node.calcChildren fuel disk cs = (r, cs') → ∀ c ∈ cs', Live disk c) := by
  induction fuel with
  | zero =>
    refine ⟨?_, ?_, ?_, ?_, ?_⟩
    · intro disk p n h
      exact absurd h (by simp [Node.new])
    · intro disk base names cs h
      exact absurd h (by simp [Node.buildChildren])
    · intro disk n u n' hsome h
      injection h with h1 h2
      exact absurd h1 (by simp)
    · intro disk n r n' hLive h
      injection h with h1 h2
      rw [← h2]
      exact hLive
    · intro disk cs r cs' hmem h
      injection h with h1 h2
      rw [← h2]
      exact hmem
  | succ fuel ih =>
    obtain ⟨ihNew, ihBuild, ihPop, ihCalc, ihCalcL⟩ := ih
    refine ⟨?_, ?_, ?_, ?_, ?_⟩
    · intro disk p n h
      cases hm : extMetadataAt disk p with
      | error e =>
        rw [(by simp [Node.new, hm] : Node.new (fuel + 1) disk p = .error e)] at h
        exact absurd h (by simp)
      | ok m =>
        cases hst : disk.statAt p with
        | error e =>
          rw [(by simp [Node.new, hm, hst] : Node.new (fuel + 1) disk p = .error e)] at h
          exact absurd h (by simp)
        | ok st =>
          have hval : Node.new (fuel + 1) disk p = .ok ((Node.calc_size fuel disk
              (Node.populate_children fuel disk
                (.mk p (if st.isDir then NodeType.Directory else NodeType.File)
                  m none 0)).2).2) := by
            simp [Node.new, hm, hst]
          rw [hval] at h
          injection h with h1
          rw [← h1]
          have hsome := statAt_ok_isSome hst
          have h0 : Live disk (Node.mk p
              (if st.isDir then NodeType.Directory else NodeType.File) m none 0) := by
            cases st.isDir
            · exact .fileL p m none 0 hsome
            · exact .dirL p m none 0 hsome (fun cs hcs => absurd hcs (by simp))
          rcases hq : Node.populate_children fuel disk
              (Node.mk p (if st.isDir then NodeType.Directory else NodeType.File) m none 0)
            with ⟨r1, n1⟩
          have hLive1 : Live disk n1 := by
            cases r1 with
            | error e =>
              rw [populate_children_error_eq hq]
              exact h0
            | ok u =>
              exact ihPop disk
                (Node.mk p (if st.isDir then NodeType.Directory else NodeType.File) m none 0)
                u n1 (show ((disk.lookup (Node.mk p
                  (if st.isDir then NodeType.Directory else NodeType.File)
                  m none 0).path).isSome = true) from hsome) hq
          rcases hc : Node.calc_size fuel disk n1 with ⟨r2, n2⟩
          exact ihCalc disk n1 r2 n2 hLive1 hc
    · intro disk base names cs h
      match names with
      | [] =>
        have hval : Node.buildChildren (fuel + 1) disk base [] = .ok [] := by
          simp [Node.buildChildren]
        have h2 := hval.symm.trans h
        injection h2 with h3
        rw [← h3]
        intro c hc
        exact absurd hc (by simp)
      | name :: rest =>
        cases hn : Node.new fuel disk (base ++ [name]) with
        | error e =>
          have hval : Node.buildChildren (fuel + 1) disk base (name :: rest) = .error e := by
            simp [Node.buildChildren, hn]
          rw [hval] at h
          exact absurd h (by simp)
        | ok c0 =>
          cases hbr : Node.buildChildren fuel disk base rest with
          | error e =>
            have hval : Node.buildChildren (fuel + 1) disk base (name :: rest) = .error e := by
              simp [Node.buildChildren, hn, hbr]
            rw [hval] at h
            exact absurd h (by simp)
          | ok cs2 =>
            have hval : Node.buildChildren (fuel + 1) disk base (name :: rest) =
                .ok (c0 :: cs2) := by
              simp [Node.buildChildren, hn, hbr]
            have h2 := hval.symm.trans h
            injection h2 with h3
            rw [← h3]
            intro c hc
            rcases List.mem_cons.mp hc with h4 | h4
            · rw [h4]; exact ihNew disk (base ++ [name]) c0 hn
            · exact ihBuild disk base rest cs2 hbr c h4
    · intro disk n u n' hsome h
      match n with
      | .mk p t m c s =>
        cases t with
        | File =>
          have hval : Node.populate_children (fuel + 1) disk (Node.mk p .File m c s) =
              (.ok (), Node.mk p .File m c s) := by
            simp [Node.populate_children]
          have h2 := hval.symm.trans h
          injection h2 with h3 h4
          rw [← h4]
          exact .fileL p m c s hsome
        | Directory =>
          cases hr : disk.readDirAt p with
          | error e =>
            have hval : Node.populate_children (fuel + 1) disk
                (Node.mk p .Directory m c s) = (.error e, Node.mk p .Directory m c s) := by
              simp [Node.populate_children, hr]
            have h2 := hval.symm.trans h
            injection h2 with h3 h4
            exact absurd h3 (by simp)
          | ok names =>
            cases hb : Node.buildChildren fuel disk p names with
            | error e =>
              have hval : Node.populate_children (fuel + 1) disk
                  (Node.mk p .Directory m c s) = (.error e, Node.mk p .Directory m c s) := by
                simp [Node.populate_children, hr, hb]
              have h2 := hval.symm.trans h
              injection h2 with h3 h4
              exact absurd h3 (by simp)
            | ok childs =>
              have hval : Node.populate_children (fuel + 1) disk
                  (Node.mk p .Directory m c s) =
                  (.ok (), Node.mk p .Directory m (some childs) s) := by
                simp [Node.populate_children, hr, hb]
              have h2 := hval.symm.trans h
              injection h2 with h3 h4
              rw [← h4]
              refine .dirL p m (some childs) s hsome ?_
              intro cs hcs x hx
              injection hcs with hcs
              rw [← hcs] at hx
              exact ihBuild disk p names childs hb x hx
    · intro disk n r n' hLive h
      match n with
      | .mk p t m c s =>
        cases t with
        | File =>
          cases hs : disk.statAt p with
          | error e =>
            have hval : Node.calc_size (fuel + 1) disk (Node.mk p .File m c s) =
                (.error e, Node.mk p .File m c s) := by
              simp [Node.calc_size, hs]
            have h2 := hval.symm.trans h
            injection h2 with h3 h4
            rw [← h4]
            exact hLive
          | ok st =>
            have hval : Node.calc_size (fuel + 1) disk (Node.mk p .File m c s) =
                (.ok (), Node.mk p .File m c st.size) := by
              simp [Node.calc_size, hs]
            have h2 := hval.symm.trans h
            injection h2 with h3 h4
            rw [← h4]
            exact .fileL p m c st.size hLive.isSome
        | Directory =>
          cases c with
          | none =>
            rcases hq : Node.populate_children fuel disk (Node.mk p .Directory m none s)
              with ⟨r1, n1⟩
            cases r1 with
            | error e =>
              have hn1 : n1 = Node.mk p .Directory m none s := populate_children_error_eq hq
              have hval : Node.calc_size (fuel + 1) disk (Node.mk p .Directory m none s) =
                  (.error e, n1) := by
                rw [hn1]
                rw [hn1] at hq
                simp [Node.calc_size, hq]
              have h2 := hval.symm.trans h
              injection h2 with h3 h4
              rw [← h4, hn1]
              exact hLive
            | ok u =>
              have hLive1 : Live disk n1 := ihPop disk _ u n1 hLive.isSome hq
              rcases populate_children_sh fuel disk p .Directory m none s
                with ⟨e1, hp⟩ | ⟨cs1, hp⟩ | hp
              · rw [hq] at hp
                injection hp with hp1 hp2
                exact absurd hp1.symm (by simp)
              · rw [hq] at hp
                injection hp with hp1 hp2
                rw [hp2] at hq hLive1
                rcases hcc : Node.calcChildren fuel disk cs1 with ⟨rr, cs2⟩
                have hmem2 : ∀ x ∈ cs2, Live disk x :=
                  ihCalcL disk cs1 rr cs2 (hLive1.mem) hcc
                cases rr with
                | error e =>
                  have hval : Node.calc_size (fuel + 1) disk
                      (Node.mk p .Directory m none s) =
                      (.error e, Node.mk p .Directory m (some cs2) s) := by
                    simp [Node.calc_size, hq, hcc]
                  have h2 := hval.symm.trans h
                  injection h2 with h3 h4
                  rw [← h4]
                  refine .dirL p m (some cs2) s hLive.isSome ?_
                  intro cs hcs x hx
                  injection hcs with hcs
                  rw [← hcs] at hx
                  exact hmem2 x hx
                | ok total =>
                  have hval : Node.calc_size (fuel + 1) disk
                      (Node.mk p .Directory m none s) =
                      (.ok (), Node.mk p .Directory m (some cs2) total) := by
                    simp [Node.calc_size, hq, hcc]
                  have h2 := hval.symm.trans h
                  injection h2 with h3 h4
                  rw [← h4]
                  refine .dirL p m (some cs2) total hLive.isSome ?_
                  intro cs hcs x hx
                  injection hcs with hcs
                  rw [← hcs] at hx
                  exact hmem2 x hx
              · rw [hq] at hp
                injection hp with hp1 hp2
                rw [hp2] at hq
                have hval : Node.calc_size (fuel + 1) disk
                    (Node.mk p .Directory m none s) =
                    (.ok (), Node.mk p .Directory m none 0) := by
                  simp [Node.calc_size, hq]
                have h2 := hval.symm.trans h
                injection h2 with h3 h4
                rw [← h4]
                exact .dirL p m none 0 hLive.isSome (fun cs hcs => absurd hcs (by simp))
          | some cs0 =>
            rcases hcc : Node.calcChildren fuel disk cs0 with ⟨rr, cs2⟩
            have hmem2 : ∀ x ∈ cs2, Live disk x :=
              ihCalcL disk cs0 rr cs2 (hLive.mem) hcc
            cases rr with
            | error e =>
              have hval : Node.calc_size (fuel + 1) disk
                  (Node.mk p .Directory m (some cs0) s) =
                  (.error e, Node.mk p .Directory m (some cs2) s) := by
                simp [Node.calc_size, hcc]
              have h2 := hval.symm.trans h
              injection h2 with h3 h4
              rw [← h4]
              refine .dirL p m (some cs2) s hLive.isSome ?_
              intro cs hcs x hx
              injection hcs with hcs
              rw [← hcs] at hx
              exact hmem2 x hx
            | ok total =>
              have hval : Node.calc_size (fuel + 1) disk
                  (Node.mk p .Directory m (some cs0) s) =
                  (.ok (), Node.mk p .Directory m (some cs2) total) := by
                simp [Node.calc_size, hcc]
              have h2 := hval.symm.trans h
              injection h2 with h3 h4
              rw [← h4]
              refine .dirL p m (some cs2) total hLive.isSome ?_
              intro cs hcs x hx
              injection hcs with hcs
              rw [← hcs] at hx
              exact hmem2 x hx
    · intro disk cs r cs' hmem h
      match cs with
      | [] =>
        have hval : Node.calcChildren (fuel + 1) disk [] = (.ok 0, []) := by
          simp [Node.calcChildren]
        have h2 := hval.symm.trans h
        injection h2 with h3 h4
        rw [← h4]
        exact fun c hc => absurd hc (by simp)
      | c0 :: rest =>
        rcases h1 : Node.calc_size fuel disk c0 with ⟨r1, c1⟩
        have hLive1 : Live disk c1 := ihCalc disk c0 r1 c1 (hmem c0 (by simp)) h1
        have hmemRest : ∀ x ∈ rest, Live disk x := fun x hx => hmem x (by simp [hx])
        cases r1 with
        | error e =>
          have hval : Node.calcChildren (fuel + 1) disk (c0 :: rest) =
              (.error e, c1 :: rest) := by
            simp [Node.calcChildren, h1]
          have h2 := hval.symm.trans h
          injection h2 with h3 h4
          rw [← h4]
          intro x hx
          rcases List.mem_cons.mp hx with h5 | h5
          · rw [h5]; exact hLive1
          · exact hmemRest x h5
        | ok u =>
          rcases h2 : Node.calcChildren fuel disk rest with ⟨r2, cs2⟩
          have hmem2 : ∀ x ∈ cs2, Live disk x := ihCalcL disk rest r2 cs2 hmemRest h2
          cases r2 with
          | error e =>
            have hval : Node.calcChildren (fuel + 1) disk (c0 :: rest) =
                (.error e, c1 :: cs2) := by
              simp [Node.calcChildren, h1, h2]
            have h3 := hval.symm.trans h
            injection h3 with h4 h5
            rw [← h5]
            intro x hx
            rcases List.mem_cons.mp hx with h6 | h6
            · rw [h6]; exact hLive1
            · exact hmem2 x h6
          | ok total =>
            have hval : Node.calcChildren (fuel + 1) disk (c0 :: rest) =
                (.ok (c1.size + total), c1 :: cs2) := by
              simp [Node.calcChildren, h1, h2]
            have h3 := hval.symm.trans h
            injection h3 with h4 h5
            rw [← h5]
            intro x hx
            rcases List.mem_cons.mp hx with h6 | h6
            · rw [h6]; exact hLive1
            · exact hmem2 x h6


/-- On a resolvable path `Node::new` never fails with NotFound: its only
error exits are the two stats of the path itself (deeper failures are
swallowed). -/
theorem new_isSome_error_kind {fuel : Nat} {disk : Entry} {p : Path} {e : FsError}
    (hsome : (disk.lookup p).isSome = true) (h : Node.new fuel disk p = .error e) :
    e = .ioError := by
  match fuel with
  | 0 =>
    injection h with h1
    exact h1.symm
  | fuel + 1 =>
    cases hst : disk.statAt p with
    | error e1 =>
      have hmeta : extMetadataAt disk p = .error e1 := by
        simp [extMetadataAt, hst]
      have hval : Node.new (fuel + 1) disk p = .error e1 := by
        simp [Node.new, hmeta]
      have h2 := hval.symm.trans h
      injection h2 with h3
      rw [← h3]
      exact statAt_isSome_error_kind hsome hst
    | ok st =>
      have hmeta : extMetadataAt disk p = .ok st.times := by
        simp [extMetadataAt, hst]
      have hval : Node.new (fuel + 1) disk p = .ok ((Node.calc_size fuel disk
          (Node.populate_children fuel disk
            (.mk p (if st.isDir then NodeType.Directory else NodeType.File)
              st.times none 0)).2).2) := by
        simp [Node.new, hmeta, hst]
      rw [hval] at h
      exact absurd h (by simp)

theorem build_error_kind (fuel : Nat) (disk : Entry) (base : Path) :
    ∀ names e, (∀ nm ∈ names, (disk.lookup (base ++ [nm])).isSome = true) →
    Node.buildChildren fuel disk base names = .error e → e = .ioError := by
  induction fuel with
  | zero =>
    intro names e hres h
    injection h with h1
    exact h1.symm
  | succ fuel ih =>
    intro names e hres h
    match names with
    | [] =>
      have hval : Node.buildChildren (fuel + 1) disk base [] = .ok [] := by
        simp [Node.buildChildren]
      rw [hval] at h
      exact absurd h (by simp)
    | name :: rest =>
      cases hn : Node.new fuel disk (base ++ [name]) with
      | error e1 =>
        have hval : Node.buildChildren (fuel + 1) disk base (name :: rest) = .error e1 := by
          simp [Node.buildChildren, hn]
        have h2 := hval.symm.trans h
        injection h2 with h3
        rw [← h3]
        exact new_isSome_error_kind (hres name (by simp)) hn
      | ok c0 =>
        cases hbr : Node.buildChildren fuel disk base rest with
        | error e2 =>
          have hval : Node.buildChildren (fuel + 1) disk base (name :: rest) = .error e2 := by
            simp [Node.buildChildren, hn, hbr]
          have h2 := hval.symm.trans h
          injection h2 with h3
          rw [← h3]
          exact ih rest e2 (fun nm hm => hres nm (by simp [hm])) hbr
        | ok cs2 =>
          have hval : Node.buildChildren (fuel + 1) disk base (name :: rest) =
              .ok (c0 :: cs2) := by
            simp [Node.buildChildren, hn, hbr]
          rw [hval] at h
          exact absurd h (by simp)

/-- On a node whose path resolves, `populate_children` never fails with
NotFound: the listing exists and every listed child stat resolves. -/
theorem populate_isSome_error_kind {fuel : Nat} {disk : Entry} {n : Node} {e : FsError}
    {n' : Node} (hsome : (disk.lookup n.path).isSome = true)
    (h : Node.populate_children fuel disk n = (.error e, n')) : e = .ioError := by
  match fuel with
  | 0 =>
    injection h with h1 h2
    injection h1 with h1
    exact h1.symm
  | fuel + 1 =>
    match n with
    | .mk p t m c s =>
      cases t with
      | File =>
        have hval : Node.populate_children (fuel + 1) disk (Node.mk p .File m c s) =
            (.ok (), Node.mk p .File m c s) := by
          simp [Node.populate_children]
        have h2 := hval.symm.trans h
        injection h2 with h3 h4
        exact absurd h3 (by simp)
      | Directory =>
        cases hr : disk.readDirAt p with
        | error e1 =>
          have hval : Node.populate_children (fuel + 1) disk (Node.mk p .Directory m c s) =
              (.error e1, Node.mk p .Directory m c s) := by
            simp [Node.populate_children, hr]
          have h2 := hval.symm.trans h
          injection h2 with h3 h4
          injection h3 with h3
          rw [← h3]
          exact readDirAt_isSome_error_kind hsome hr
        | ok names =>
          cases hb : Node.buildChildren fuel disk p names with
          | error e2 =>
            have hval : Node.populate_children (fuel + 1) disk (Node.mk p .Directory m c s) =
                (.error e2, Node.mk p .Directory m c s) := by
              simp [Node.populate_children, hr, hb]
            have h2 := hval.symm.trans h
            injection h2 with h3 h4
            injection h3 with h3
            rw [← h3]
            exact build_error_kind fuel disk p names e2 (readDirAt_mem_isSome hr) hb
          | ok childs =>
            have hval : Node.populate_children (fuel + 1) disk (Node.mk p .Directory m c s) =
                (.ok (), Node.mk p .Directory m (some childs) s) := by
              simp [Node.populate_children, hr, hb]
            have h2 := hval.symm.trans h
            injection h2 with h3 h4
            exact absurd h3 (by simp)

/-- On a live node, `calc_size` never fails with NotFound. -/
theorem calc_error_kind_battery (fuel : Nat) (disk : Entry) :
    (∀ n e n', Live disk n → Node.calc_size fuel disk n = (.error e, n') →
      e = .ioError) ∧
    (∀ cs e cs', (∀ c ∈ cs, Live disk c) →
      Node.calcChildren fuel disk cs = (.error e, cs') → e = .ioError) := by
  induction fuel with
  | zero =>
    constructor
    · intro n e n' hLive h
      injection h with h1 h2
      injection h1 with h1
      exact h1.symm
    · intro cs e cs' hmem h
      injection h with h1 h2
      injection h1 with h1
      exact h1.symm
  | succ fuel ih =>
    obtain ⟨ihCalc, ihCalcL⟩ := ih
    constructor
    · intro n e n' hLive h
      match n with
      | .mk p t m c s =>
        cases t with
        | File =>
          cases hs : disk.statAt p with
          | error e1 =>
            have hval : Node.calc_size (fuel + 1) disk (Node.mk p .File m c s) =
                (.error e1, Node.mk p .File m c s) := by
              simp [Node.calc_size, hs]
            have h2 := hval.symm.trans h
            injection h2 with h3 h4
            injection h3 with h3
            rw [← h3]
            exact statAt_isSome_error_kind hLive.isSome hs
          | ok st =>
            have hval : Node.calc_size (fuel + 1) disk (Node.mk p .File m c s) =
                (.ok (), Node.mk p .File m c st.size) := by
              simp [Node.calc_size, hs]
            have h2 := hval.symm.trans h
            injection h2 with h3 h4
            exact absurd h3 (by simp)
        | Directory =>
          cases c with
          | none =>
            rcases hq : Node.populate_children fuel disk (Node.mk p .Directory m none s)
              with ⟨r1, n1⟩
            cases r1 with
            | error e1 =>
              have hn1 : n1 = Node.mk p .Directory m none s := populate_children_error_eq hq
              have hval : Node.calc_size (fuel + 1) disk (Node.mk p .Directory m none s) =
                  (.error e1, n1) := by
                rw [hn1]
                rw [hn1] at hq
                simp [Node.calc_size, hq]
              have h2 := hval.symm.trans h
              injection h2 with h3 h4
              injection h3 with h3
              rw [← h3]
              exact populate_isSome_error_kind hLive.isSome hq
            | ok u =>
              have hLive1 : Live disk n1 := (live_battery fuel).2.2.1 disk
                (Node.mk p .Directory m none s) u n1 hLive.isSome hq
              rcases populate_children_sh fuel disk p .Directory m none s
                with ⟨e1, hp⟩ | ⟨cs1, hp⟩ | hp
              · rw [hq] at hp
                injection hp with hp1 hp2
                exact absurd hp1.symm (by simp)
              · rw [hq] at hp
                injection hp with hp1 hp2
                rw [hp2] at hq hLive1
                rcases hcc : Node.calcChildren fuel disk cs1 with ⟨rr, cs2⟩
                cases rr with
                | error e2 =>
                  have hval : Node.calc_size (fuel + 1) disk
                      (Node.mk p .Directory m none s) =
                      (.error e2, Node.mk p .Directory m (some cs2) s) := by
                    simp [Node.calc_size, hq, hcc]
                  have h2 := hval.symm.trans h
                  injection h2 with h3 h4
                  injection h3 with h3
                  rw [← h3]
                  exact ihCalcL cs1 e2 cs2 (hLive1.mem) hcc
                | ok total =>
                  have hval : Node.calc_size (fuel + 1) disk
                      (Node.mk p .Directory m none s) =
                      (.ok (), Node.mk p .Directory m (some cs2) total) := by
                    simp [Node.calc_size, hq, hcc]
                  have h2 := hval.symm.trans h
                  injection h2 with h3 h4
                  exact absurd h3 (by simp)
              · rw [hq] at hp
                injection hp with hp1 hp2
                rw [hp2] at hq
                have hval : Node.calc_size (fuel + 1) disk
                    (Node.mk p .Directory m none s) =
                    (.ok (), Node.mk p .Directory m none 0) := by
                  simp [Node.calc_size, hq]
                have h2 := hval.symm.trans h
                injection h2 with h3 h4
                exact absurd h3 (by simp)
          | some cs0 =>
            rcases hcc : Node.calcChildren fuel disk cs0 with ⟨rr, cs2⟩
            cases rr with
            | error e2 =>
              have hval : Node.calc_size (fuel + 1) disk
                  (Node.mk p .Directory m (some cs0) s) =
                  (.error e2, Node.mk p .Directory m (some cs2) s) := by
                simp [Node.calc_size, hcc]
              have h2 := hval.symm.trans h
              injection h2 with h3 h4
              injection h3 with h3
              rw [← h3]
              exact ihCalcL cs0 e2 cs2 (hLive.mem) hcc
            | ok total =>
              have hval : Node.calc_size (fuel + 1) disk
                  (Node.mk p .Directory m (some cs0) s) =
                  (.ok (), Node.mk p .Directory m (some cs2) total) := by
                simp [Node.calc_size, hcc]
              have h2 := hval.symm.trans h
              injection h2 with h3 h4
              exact absurd h3 (by simp)
    · intro cs e cs' hmem h
      match cs with
      | [] =>
        have hval : Node.calcChildren (fuel + 1) disk [] = (.ok 0, []) := by
          simp [Node.calcChildren]
        have h2 := hval.symm.trans h
        injection h2 with h3 h4
        exact absurd h3 (by simp)
      | c0 :: rest =>
        rcases h1 : Node.calc_size fuel disk c0 with ⟨r1, c1⟩
        cases r1 with
        | error e1 =>
          have hval : Node.calcChildren (fuel + 1) disk (c0 :: rest) =
              (.error e1, c1 :: rest) := by
            simp [Node.calcChildren, h1]
          have h2 := hval.symm.trans h
          injection h2 with h3 h4
          injection h3 with h3
          rw [← h3]
          exact ihCalc c0 e1 c1 (hmem c0 (by simp)) h1
        | ok u =>
          rcases h2 : Node.calcChildren fuel disk rest with ⟨r2, cs2⟩
          cases r2 with
          | error e2 =>
            have hval : Node.calcChildren (fuel + 1) disk (c0 :: rest) =
                (.error e2, c1 :: cs2) := by
              simp [Node.calcChildren, h1, h2]
            have h3 := hval.symm.trans h
            injection h3 with h4 h5
            injection h4 with h4
            rw [← h4]
            exact ihCalcL rest e2 cs2 (fun x hx => hmem x (by simp [hx])) h2
          | ok total =>
            have hval : Node.calcChildren (fuel + 1) disk (c0 :: rest) =
                (.ok (c1.size + total), c1 :: cs2) := by
              simp [Node.calcChildren, h1, h2]
            have h3 := hval.symm.trans h
            injection h3 with h4 h5
            exact absurd h4 (by simp)

/-- On a tree whose root path resolves, a failing `refresh` never reports
NotFound. -/
theorem refresh_error_kind {fuel : Nat} {disk : Entry} {t : Tree} {e : FsError}
    {t' : Tree} (hsome : (disk.lookup t.head.path).isSome = true)
    (h : Tree.refresh fuel disk t = (.error e, t')) : e = .ioError := by
  rcases hq : Node.populate_children fuel disk t.head with ⟨r1, h1⟩
  cases r1 with
  | error e1 =>
    have hval : Tree.refresh fuel disk t = (.error e1, ⟨h1⟩) := by
      simp [Tree.refresh, hq]
    have h2 := hval.symm.trans h
    injection h2 with h3 h4
    injection h3 with h3
    rw [← h3]
    exact populate_isSome_error_kind hsome hq
  | ok u =>
    have hLive1 : Live disk h1 := (live_battery fuel).2.2.1 disk t.head u h1 hsome hq
    rcases hc : Node.calc_size fuel disk h1 with ⟨r2, h2⟩
    cases r2 with
    | error e2 =>
      have hval : Tree.refresh fuel disk t = (.error e2, ⟨h2⟩) := by
        simp [Tree.refresh, hq, hc]
      have h3 := hval.symm.trans h
      injection h3 with h4 h5
      injection h4 with h4
      rw [← h4]
      exact (calc_error_kind_battery fuel disk).1 h1 e2 h2 hLive1 hc
    | ok u2 =>
      have hval : Tree.refresh fuel disk t = (.ok (), ⟨h2⟩) := by
        simp [Tree.refresh, hq, hc]
      have h3 := hval.symm.trans h
      injection h3 with h4 h5
      exact absurd h4 (by simp)


/-- C5.  `create_dir(rel)` creates the directory and all missing
intermediates on disk at `root.path ++ rel`, then performs a full refresh,
then returns the node found at that path in the refreshed tree; and it fails
with NotFound exactly when, after a completed mkdir and refresh, the expected
path is absent from the tree (every other failure carries a non-NotFound
error kind). -/
theorem c5_create_dir_spec (fuel : Nat) (disk : Entry) (t : Tree) (rel : Path)
    (res : Except FsError Node) (disk' : Entry) (t' : Tree)
    (h : Tree.create_dir fuel disk t rel = (res, disk', t')) :
    (∀ n, res = .ok n →
      Entry.mkdirAll disk (t.head.path ++ rel) = .ok disk' ∧
      Tree.refresh fuel disk' t = (.ok (), t') ∧
      Tree.get_node t' (t.head.path ++ rel) = some n ∧
      (∀ k, k ≤ (t.head.path ++ rel).length →
        ∃ m ro es, disk'.lookup ((t.head.path ++ rel).take k) = some (.dir m ro es))) ∧
    (res = .error .notFound ↔
      (Entry.mkdirAll disk (t.head.path ++ rel) = .ok disk' ∧
       Tree.refresh fuel disk' t = (.ok (), t') ∧
       Tree.get_node t' (t.head.path ++ rel) = none)) := by
  cases hmk : disk.mkdirAll (t.head.path ++ rel) with
  | error e =>
    have hval : Tree.create_dir fuel disk t rel = (.error e, disk, t) := by
      simp [Tree.create_dir, hmk]
    have h2 := hval.symm.trans h
    injection h2 with hres hrest
    injection hrest with hdisk ht
    subst hres
    subst hdisk
    subst ht
    constructor
    · intro n hn
      exact absurd hn (by simp)
    · constructor
      · intro hn
        injection hn with hn
        have hek := mkdirAll_error_kind hmk
        exact absurd (hn.symm.trans hek) (by simp)
      · rintro ⟨hmk2, hr2, hg2⟩
        exact absurd hmk2 (by simp)
  | ok d2 =>
    rcases hr : Tree.refresh fuel d2 t with ⟨rr, t2⟩
    cases rr with
    | error e =>
      have hval : Tree.create_dir fuel disk t rel = (.error e, d2, t2) := by
        simp [Tree.create_dir, hmk, hr]
      have h2 := hval.symm.trans h
      injection h2 with hres hrest
      injection hrest with hdisk ht
      subst hres
      subst hdisk
      subst ht
      have hsome : (d2.lookup t.head.path).isSome = true := by
        obtain ⟨m, ro, es, hl⟩ := mkdirAll_ok_prefix_dirs hmk t.head.path.length
          (by simp)
        rw [List.take_left] at hl
        simp [hl]
      have hek : e = .ioError := refresh_error_kind hsome hr
      constructor
      · intro n hn
        exact absurd hn (by simp)
      · constructor
        · intro hn
          injection hn with hn
          exact absurd (hek.symm.trans hn) (by simp)
        · rintro ⟨hmk2, hr2, hg2⟩
          have h3 := hr.symm.trans hr2
          injection h3 with h4 h5
          exact absurd h4 (by simp)
    | ok u =>
      cases u
      cases hg : Tree.get_node t2 (t.head.path ++ rel) with
      | some n0 =>
        have hval : Tree.create_dir fuel disk t rel = (.ok n0, d2, t2) := by
          simp [Tree.create_dir, hmk, hr, hg]
        have h2 := hval.symm.trans h
        injection h2 with hres hrest
        injection hrest with hdisk ht
        subst hres
        subst hdisk
        subst ht
        constructor
        · intro n hn
          injection hn with hn
          subst hn
          exact ⟨rfl, hr, hg, fun k hk => mkdirAll_ok_prefix_dirs hmk k hk⟩
        · constructor
          · intro hn
            exact absurd hn (by simp)
          · rintro ⟨hmk2, hr2, hg2⟩
            exact absurd (hg.symm.trans hg2) (by simp)
      | none =>
        have hval : Tree.create_dir fuel disk t rel = (.error .notFound, d2, t2) := by
          simp [Tree.create_dir, hmk, hr, hg]
        have h2 := hval.symm.trans h
        injection h2 with hres hrest
        injection hrest with hdisk ht
        subst hres
        subst hdisk
        subst ht
        constructor
        · intro n hn
          exact absurd hn (by simp)
        · constructor
          · intro _
            exact ⟨rfl, hr, hg⟩
          · intro _
            rfl


/-- The empty-directory disk after `create_dir_all` of `d`. -/
def diskWithD : Entry := .dir metaW true [("d", .dir freshMetadata true [])]

/-- The node the concrete `create_dir` returns. -/
def dNode : Node := .mk ["d"] .Directory freshMetadata (some []) 0

/-- The refreshed mirror of `diskWithD`. -/
def treeWithD : Node := .mk [] .Directory metaW (some [dNode]) 0

theorem iterList_treeWithD :
    Tree.iterList ⟨treeWithD⟩ = [treeWithD, dNode] := by
  simp [Tree.iterList, Tree.runIter, treeWithD, dNode, Node.childList, Node.children]

theorem get_node_treeWithD :
    Tree.get_node ⟨treeWithD⟩ ["d"] = some dNode := by
  show (Tree.iterList ⟨treeWithD⟩).find? (fun n => n.path == ["d"]) = some dNode
  rw [iterList_treeWithD]
  rfl

theorem create_dir_concrete :
    Tree.create_dir 6 diskEmptyDir ⟨nodeEmpty⟩ ["d"] =
      (.ok dNode, diskWithD, ⟨treeWithD⟩) := by
  have hpath : nodeEmpty.path = [] := rfl
  have h1 : diskEmptyDir.mkdirAll ["d"] = .ok diskWithD := rfl
  have h2 : Tree.refresh 6 diskWithD ⟨nodeEmpty⟩ = (.ok (), ⟨treeWithD⟩) := rfl
  have h3 := get_node_treeWithD
  simp [Tree.create_dir, hpath, h1, h2, h3]

/-- C5, witness: creating `d` under the empty tree root creates it on disk,
refreshes, and returns the directory node found at its path. -/
theorem c5_witness :
    Entry.mkdirAll diskEmptyDir ((⟨nodeEmpty⟩ : Tree).head.path ++ ["d"]) = .ok diskWithD ∧
    Tree.refresh 6 diskWithD ⟨nodeEmpty⟩ = (.ok (), ⟨treeWithD⟩) ∧
    Tree.get_node ⟨treeWithD⟩ ((⟨nodeEmpty⟩ : Tree).head.path ++ ["d"]) = some dNode ∧
    (∀ k, k ≤ ((⟨nodeEmpty⟩ : Tree).head.path ++ ["d"]).length →
      ∃ m ro es, diskWithD.lookup (((⟨nodeEmpty⟩ : Tree).head.path ++ ["d"]).take k) =
        some (.dir m ro es)) :=
  (c5_create_dir_spec 6 diskEmptyDir ⟨nodeEmpty⟩ ["d"] (.ok dNode) diskWithD
    ⟨treeWithD⟩ create_dir_concrete).1 dNode rfl

end FileFrontier
